import Mathlib

/-!
Verification of the tick-driven world simulator core:
spatial graph with BFS pathfinding (Grafitti / RoomGraph), per-actor
schedules and target-event resolution (Scheduler), the movement tick loop
(ExecutiveDirector), and the witnessed-event memory system (Destiny).

The definitions below are shallow embeddings of the TypeScript source.
JavaScript `Map`s keyed by strings are modelled as association lists with
`Map.set` last-write-wins lookup; JS objects (`Record<string, T>`) are
association lists with unique keys; JS string falsiness (`""` is falsy)
is modelled explicitly where the source relies on it.
-/

namespace Spec2Proof

/-- A location: id, display name, and exits (direction label ↦ target id),
from `Room` in engine/types. `Object.entries(room.exits)` iteration order
is the list order. -/
structure Room where
  id : String
  name : String
  exits : List (String × String)
deriving Repr, DecidableEq

/-- State of the `Grafitti` world tracker: the room set (post-`initialize`)
and the character position map (`characterPositions`). `initialize` stores
rooms into a `Map` in array order (last write wins per id), and builds
`adjacency` from the same rooms, so we keep the room list itself. -/
structure Grafitti where
  rooms : List Room
  positions : List (String × String)
deriving Repr, DecidableEq

namespace Grafitti

/-- `this.rooms.has(id)` after `initialize`. -/
def hasRoom (g : Grafitti) (id : String) : Bool :=
  g.rooms.any (fun r => r.id == id)

/-- `this.rooms.get(id)` after `initialize`: last room with this id wins
(JS `Map.set` overwrite). -/
def getRoom (g : Grafitti) (id : String) : Option Room :=
  g.rooms.reverse.find? (fun r => r.id == id)

/-- `this.adjacency.get(id)` as a direction ↦ target list. -/
def adjList (g : Grafitti) (id : String) : List (String × String) :=
  match getRoom g id with
  | some r => r.exits
  | none => []

/-- The exit targets of a room in iteration order (`exits.values()`). -/
def adj (g : Grafitti) (id : String) : List String :=
  (adjList g id).map Prod.snd

/-- `getDirection(fromId, toId)`: first direction whose target is `toId`. -/
def getDirection (g : Grafitti) (fromId toId : String) : Option String :=
  ((adjList g fromId).find? (fun p => p.2 == toId)).map Prod.fst

/-- `areConnected(a, b)`: `b` occurs among the exit targets of `a`. -/
def areConnected (g : Grafitti) (roomA roomB : String) : Bool :=
  (adj g roomA).contains roomB

/-- `getCharacterRoom(charId)`. -/
def getCharacterRoom (g : Grafitti) (charId : String) : Option String :=
  (g.positions.find? (fun p => p.1 == charId)).map Prod.snd

/-- JS `Map.set k v`: overwrite in place if the key is present, else append. -/
def setKey (ps : List (String × String)) (k v : String) : List (String × String) :=
  if ps.any (fun p => p.1 == k) then
    ps.map (fun p => if p.1 == k then (k, v) else p)
  else ps ++ [(k, v)]

/-- `moveCharacter(charId, newRoomId)`: fails (and changes nothing) when the
room is unknown, else sets the character's position. Returns the JS boolean
together with the new state. -/
def moveCharacter (g : Grafitti) (charId newRoomId : String) : Bool × Grafitti :=
  if hasRoom g newRoomId then
    (true, { g with positions := setKey g.positions charId newRoomId })
  else (false, g)

/-- `initialize(rooms)` (a Lean keyword, hence `initRooms` here): replace
the room set, and the adjacency derived from it, atomically, leaving
character positions as they were. With unique ids the two `Map`s are fully
determined by the room list, which is what the state keeps. -/
def initRooms (g : Grafitti) (rooms : List Room) : Grafitti :=
  { g with rooms := rooms }

/-- One neighbor-scan step of the BFS inner `for` loop: visit each exit
target not yet visited, marking it visited and queueing it with its path.
Returns the grown visited set and the entries to push, in scan order. -/
def enqueueNeighbors (nbrs : List String) (visited : List String)
    (path : List String) : List String × List (String × List String) :=
  match nbrs with
  | [] => (visited, [])
  | n :: rest =>
    if visited.contains n then enqueueNeighbors rest visited path
    else
      let step := enqueueNeighbors rest (n :: visited) path
      (step.1, (n, path ++ [n]) :: step.2)

/-- The BFS `while (queue.length > 0)` loop of `findPath`. The source loop
terminates because every enqueue freshly marks a node visited; here that
measure is made explicit as fuel, and `findPath` supplies enough fuel that
the `0` branch is never taken (proved below as part of completeness). -/
def bfsLoop (g : Grafitti) (target : String) :
    Nat → List (String × List String) → List String → List String
  | 0, _, _ => []
  | _ + 1, [], _ => []
  | fuel + 1, (id, path) :: rest, visited =>
    if id == target then path
    else
      let step := enqueueNeighbors (adj g id) visited path
      bfsLoop g target fuel (rest ++ step.2) step.1

/-- All node ids BFS from `start` can ever visit: `start` plus every exit
target of every room. -/
def allNodes (g : Grafitti) (start : String) : List String :=
  start :: g.rooms.flatMap (fun r => r.exits.map Prod.snd)

/-- Fuel budget that dominates the BFS loop measure
`queue.length + 2 * (#visitable - #visited)`. -/
def nodeBound (g : Grafitti) (start : String) : Nat :=
  (allNodes g start).dedup.length

/-- `findPath(startId, targetId)`: BFS over the directed graph; the room ids
from (excluding) start to (including) target, `[]` when start = target,
either id is unknown, or no path exists. -/
def findPath (g : Grafitti) (startId targetId : String) : List String :=
  if startId == targetId then []
  else if !hasRoom g startId || !hasRoom g targetId then []
  else bfsLoop g targetId (2 * nodeBound g startId + 1) [(startId, [])] [startId]

/-- `getNextStep(fromId, toId)`: head of `findPath`, or null. -/
def getNextStep (g : Grafitti) (fromId toId : String) : Option String :=
  (findPath g fromId toId).head?

/-- `getTravelTime(fromId, toId)`: 5 minutes per hop. -/
def getTravelTime (g : Grafitti) (fromId toId : String) : Nat :=
  (findPath g fromId toId).length * 5

/-- `p` is a walk through exit targets: starting at `s`, each element is an
exit target of its predecessor, and the walk ends (`getLastD`, so the empty
walk ends at `s`) at `t`. -/
def pathToOk (g : Grafitti) (s : String) (p : List String) (t : String) : Prop :=
  List.Chain (fun a b => b ∈ adj g a) s p ∧ p.getLastD s = t

/-- A genuine (nonempty) directed path from `s` to `t`, in the shape
`findPath` promises: start excluded, target included. -/
def ValidPath (g : Grafitti) (s : String) (p : List String) (t : String) : Prop :=
  p ≠ [] ∧ pathToOk g s p t

instance (g : Grafitti) : DecidableRel (fun a b : String => b ∈ adj g a) :=
  fun _ _ => inferInstanceAs (Decidable (_ ∈ _))

/-- A `Decidable` instance for adjacency chains that reduces in the kernel
(the generic `List.decidableChain` is stated with `Eq.rec` and does not). -/
instance chainDec (g : Grafitti) : (a : String) → (p : List String) →
    Decidable (List.Chain (fun x y => y ∈ adj g x) a p)
  | _, [] => isTrue List.Chain.nil
  | a, b :: rest =>
    match inferInstanceAs (Decidable (b ∈ adj g a)), chainDec g b rest with
    | isTrue h1, isTrue h2 => isTrue (List.Chain.cons h1 h2)
    | isFalse h1, _ => isFalse (fun h => h1 (List.chain_cons.mp h).1)
    | _, isFalse h2 => isFalse (fun h => h2 (List.chain_cons.mp h).2)

instance (g : Grafitti) (s : String) (p : List String) (t : String) :
    Decidable (pathToOk g s p t) :=
  inferInstanceAs (Decidable (_ ∧ _))

instance (g : Grafitti) (s : String) (p : List String) (t : String) :
    Decidable (ValidPath g s p t) :=
  inferInstanceAs (Decidable (_ ∧ _))

/-- The BFS loop invariant: every queue entry carries a genuine walk from
`s` ending at its node, entries were enqueued with globally minimal paths,
path lengths along the queue are non-decreasing and span at most two
consecutive levels, processed nodes have all neighbors visited, the target
is never silently processed, and bookkeeping (nodup, bounds) for the fuel
argument. -/
structure BfsInv (g : Grafitti) (s t : String)
    (queue : List (String × List String)) (visited : List String) : Prop where
  start_vis : s ∈ visited
  ent_chain : ∀ e ∈ queue, List.Chain (fun a b => b ∈ adj g a) s e.2
  ent_last : ∀ e ∈ queue, e.2.getLastD s = e.1
  ent_vis : ∀ e ∈ queue, e.1 ∈ visited
  levels : List.Pairwise (· ≤ ·) (queue.map (fun e => e.2.length))
  levels_close : ∀ e ∈ queue, ∀ f ∈ queue, e.2.length ≤ f.2.length + 1
  minimal : ∀ e ∈ queue, ∀ q, pathToOk g s q e.1 → e.2.length ≤ q.length
  closure : ∀ u ∈ visited, (∀ e ∈ queue, e.1 ≠ u) → ∀ v ∈ adj g u, v ∈ visited
  target_live : t ∈ visited → ∃ e ∈ queue, e.1 = t
  ids_nodup : (queue.map Prod.fst).Nodup
  vis_nodup : visited.Nodup
  vis_sub : visited ⊆ allNodes g s

end Grafitti

/-- A schedule entry (`time`/`action`/`locationId`), from engine/types. -/
structure SchedEvent where
  time : String
  action : String
  locationId : String
deriving Repr, DecidableEq

/-- A witnessed-event memory entry (`CharacterMemory` in engine/types). The
lazily attached `cachedResponse` is modelled in the enrichment section. -/
structure CharacterMemory where
  time : String
  roomId : String
  roomName : String
  witnessedCharId : String
  witnessedCharName : String
  action : String
deriving Repr, DecidableEq

/-- The slice of a `Character` record that the simulation tick reads and
writes: identity, current position, and the append-only memory log. The
response-cache fields (`cachedResponses`, `responsesReady`) live in the
enrichment model below, which has its own character state. -/
structure Character where
  id : String
  name : String
  currentRoomId : String
  memory : List CharacterMemory
deriving Repr, DecidableEq

/-- `Grafitti.initializeCharacters(characters)`: rebuild the position map;
a missing `currentRoomId` (or, being JS `||`, an empty one) defaults to
the foyer. -/
def Grafitti.initCharacters (g : Grafitti) (characters : List Character) :
    Grafitti :=
  { g with positions := characters.map (fun c =>
      (c.id, if c.currentRoomId = "" then "foyer" else c.currentRoomId)) }

/-- JS object property lookup over an association list (`Record<string, T>`
keys are unique, so first match is the binding). -/
def lookupKey {α : Type} (m : List (String × α)) (k : String) : Option α :=
  (m.find? (fun e => e.1 == k)).map Prod.snd

/-- A movement intent `{charId, charName, from, to}` produced by
`Scheduler.tick` (`from`/`to` are Lean keywords, hence `fromRoom`/`toRoom`). -/
structure Movement where
  charId : String
  charName : String
  fromRoom : String
  toRoom : String
deriving Repr, DecidableEq

/-- `timeStr.split(':')` on the underlying character list (written out on
`List Char` so that it reduces in the kernel; `String.splitOn` does not). -/
def splitOnColonAux : List Char → List Char → List (List Char)
  | [], acc => [acc.reverse]
  | c :: cs, acc =>
    if c = ':' then acc.reverse :: splitOnColonAux cs []
    else splitOnColonAux cs (c :: acc)

def splitOnColon (l : List Char) : List (List Char) :=
  splitOnColonAux l []

/-- JS `Number` on the digit strings of a `"HH:MM"` literal: accumulate
decimal digits. (On malformed components `Number` yields `NaN`; only
well-formed time literals reach the time helpers, so no `NaN` tracking.) -/
def toNatD (l : List Char) : Nat :=
  l.foldl (fun acc c => acc * 10 + (c.toNat - 48)) 0

namespace Scheduler

/-- `Scheduler.timeToMinutes`: split `"HH:MM"` on `:` and return
`h * 60 + m`. No special case for midnight. -/
def timeToMinutes (timeStr : String) : Nat :=
  match (splitOnColon timeStr.data).map toNatD with
  | h :: m :: _ => h * 60 + m
  | [h] => h * 60
  | [] => 0

/-- The `for ... break` scan of `Scheduler.getTargetEvent`: remember the
latest event seen whose `time <= currentMinutes`, stop at the first later
event. -/
def getTargetEventLoop (currentMinutes : Nat) :
    List SchedEvent → Option SchedEvent → Option SchedEvent
  | [], acc => acc
  | e :: rest, acc =>
    if timeToMinutes e.time ≤ currentMinutes then
      getTargetEventLoop currentMinutes rest (some e)
    else acc

/-- `Scheduler.getTargetEvent(events, currentMinutes)`. -/
def getTargetEvent (events : List SchedEvent) (currentMinutes : Nat) :
    Option SchedEvent :=
  getTargetEventLoop currentMinutes events none

/-- The body of the `Object.keys(...).forEach` loop in `Scheduler.tick`,
for one schedule entry: skip absent characters, empty schedules, unresolved
targets, and actors already at their target; otherwise emit the intent. -/
def tickEntry (currentMinutes : Nat) (characters : List (String × Character))
    (entry : String × List SchedEvent) : Option Movement :=
  match lookupKey characters entry.1 with
  | none => none
  | some char =>
    if entry.2.isEmpty then none
    else
      match getTargetEvent entry.2 currentMinutes with
      | none => none
      | some targetEvent =>
        if char.currentRoomId == targetEvent.locationId then none
        else some ⟨entry.1, char.name, char.currentRoomId, targetEvent.locationId⟩

/-- `Scheduler.tick(currentTime, characters)`: one movement intent per
scheduled actor that must move, in schedule key order; `[]` when no
schedule is cached. -/
def tick (cachedSchedule : Option (List (String × List SchedEvent)))
    (currentTime : String) (characters : List (String × Character)) :
    List Movement :=
  match cachedSchedule with
  | none => []
  | some sched =>
    sched.filterMap (tickEntry (timeToMinutes currentTime) characters)

/-- Code-unit lexicographic order on strings, written out so it reduces in
the kernel; on the ASCII `"HH:MM"` literals the schedule uses this is
exactly the `localeCompare` order. -/
def lexLe : List Char → List Char → Bool
  | [], _ => true
  | _ :: _, [] => false
  | a :: as, b :: bs => if a < b then true else if b < a then false else lexLe as bs

/-- `a.time.localeCompare(b.time) <= 0` for schedule events. -/
def timeLe (a b : SchedEvent) : Bool :=
  lexLe a.time.data b.time.data

/-- Insertion step of the stable ascending sort on `time` strings. -/
def insertByTime (e : SchedEvent) : List SchedEvent → List SchedEvent
  | [] => [e]
  | x :: xs => if timeLe e x then e :: x :: xs else x :: insertByTime e xs

/-- The schedule sort `(a, b) => a.time.localeCompare(b.time)`: a stable
ascending sort on the time string (lexicographic, which is what
`localeCompare` gives on `"HH:MM"` literals), modelled as stable insertion
sort. -/
def sortByTime (l : List SchedEvent) : List SchedEvent :=
  l.foldr insertByTime []

/-- `Scheduler.addEvent(charId, time, action, locationId)`: false when the
actor has no schedule bucket; otherwise push the event and re-sort that
actor's timetable by `a.time.localeCompare(b.time)`. -/
def addEvent (cachedSchedule : Option (List (String × List SchedEvent)))
    (charId time action locationId : String) :
    Bool × Option (List (String × List SchedEvent)) :=
  match cachedSchedule with
  | none => (false, cachedSchedule)
  | some sched =>
    match lookupKey sched charId with
    | none => (false, cachedSchedule)
    | some events =>
      let sorted := sortByTime (events ++ [(⟨time, action, locationId⟩ : SchedEvent)])
      (true, some (sched.map (fun e => if e.1 == charId then (e.1, sorted) else e)))

end Scheduler

namespace Destiny

/-- `Destiny.timeToMinutes`: as the Scheduler's, but a literal `00:00`
(end-of-day midnight) is mapped to `24 * 60 = 1440`. -/
def timeToMinutes (timeStr : String) : Nat :=
  match (splitOnColon timeStr.data).map toNatD with
  | h :: m :: _ => if h = 0 ∧ m = 0 then 24 * 60 else h * 60 + m
  | [h] => h * 60
  | [] => 0

/-- `Destiny.recordWitnessedEvent(actorId, actorName, action, roomId,
roomName, time)`: every character in `roomId` other than the actor gets one
memory entry appended. (The source also fires the asynchronous enrichment
requests for each witness; those touch only the response caches, which are
modelled in the enrichment section, not the memory log or positions.) -/
def witnessEntry (actorId actorName action roomId roomName time : String)
    (kv : String × Character) : String × Character :=
  if kv.2.id == actorId then kv
  else if kv.2.currentRoomId != roomId then kv
  else (kv.1, { kv.2 with
    memory := kv.2.memory ++
      [⟨time, roomId, roomName, actorId, actorName, action⟩] })

def recordWitnessedEvent (characters : List (String × Character))
    (actorId actorName action roomId roomName time : String) :
    List (String × Character) :=
  characters.map (witnessEntry actorId actorName action roomId roomName time)

/-! ### Enrichment model (Destiny's response generation)

`Destiny` keeps, per actor, a pool of ready talk responses
(`cachedResponses`, `responsesReady`), and a map `pendingLLMCalls` of
actor-id → in-flight `generateCharacterResponses` promise, populated only
by `queueResponseGeneration` (whose `finally` deletes the entry when the
job settles). `getTalkResponse` serves from the pool, else awaits the
mapped promise and retries, else calls `generateCharacterResponses`
directly — without registering the call in the map. The model below is for
a single actor: the map becomes the flag `pending`, a collaborator outcome
is `Option (List String)` (`none` = the client is absent, the request
throws, or no JSON array parses — all caught in the source), and the
JS event-loop interleaving of the two claims' scenarios is a list of
atomic-step labels. -/

/-- Single-actor enrichment state: the response caches, the in-flight-map
flag, and ghost counters of started generation calls and of running jobs
that `queueResponseGeneration` registered in the map. -/
structure DState where
  name : String
  pending : Bool
  responsesReady : Bool
  cachedResponses : List String
  genCalls : Nat
  queuedJobs : Nat
deriving Repr, DecidableEq

/-- `queueResponseGeneration`: return early when the map already has an
entry, else start a generation job and register it. -/
def queueStep (w : DState) : DState :=
  if w.pending then w
  else { w with pending := true, genCalls := w.genCalls + 1,
                queuedJobs := w.queuedJobs + 1 }

/-- A generation attempt settles: on success install the parsed responses
and set the ready flag; every failure mode is caught and leaves the caches
untouched. -/
def applyOutcome (outcome : Option (List String)) (w : DState) : DState :=
  match outcome with
  | some rs => { w with cachedResponses := rs, responsesReady := true }
  | none => w

/-- A queued job settles; its `finally` clears the map entry. -/
def settleQueuedStep (outcome : Option (List String)) (w : DState) : DState :=
  if w.queuedJobs = 0 then w
  else { applyOutcome outcome w with
    queuedJobs := w.queuedJobs - 1, pending := false }

/-- Program counter of one `getTalkResponse` caller, one constructor per
region between suspension points. -/
inductive TalkPC
  | start
  | waitingPending
  | waitingOwn
  | ownSettled
  | done (r : String)
deriving Repr, DecidableEq

/-- One atomic step of a `getTalkResponse` caller: serve and shift the
pool (queueing a refill when it empties), or suspend on the mapped
promise, or start an own (unregistered) generation call; once the own call
has settled, serve the pool or fall back to the neutral sentence. -/
def talkStep (w : DState) (pc : TalkPC) : DState × TalkPC :=
  match pc with
  | .start =>
    if w.responsesReady ∧ w.cachedResponses ≠ [] then
      let r := w.cachedResponses.headD ""
      let rest := w.cachedResponses.tail
      if rest = [] then
        (queueStep { w with cachedResponses := rest, responsesReady := false },
          .done r)
      else ({ w with cachedResponses := rest }, .done r)
    else if w.pending then (w, .waitingPending)
    else ({ w with genCalls := w.genCalls + 1 }, .waitingOwn)
  | .waitingPending =>
    if w.pending then (w, .waitingPending) else (w, .start)
  | .waitingOwn => (w, .waitingOwn)
  | .ownSettled =>
    match w.cachedResponses with
    | r :: rest => ({ w with cachedResponses := rest }, .done r)
    | [] => (w, .done (w.name ++ " looks at you but says nothing."))
  | .done r => (w, .done r)

/-- Two concurrent `getTalkResponse` callers over the shared actor state. -/
structure Config where
  world : DState
  t1 : TalkPC
  t2 : TalkPC
deriving Repr, DecidableEq

/-- Scheduler labels: a caller's next atomic step, an external
`queueResponseGeneration` request, or a job settling with its outcome. -/
inductive Label
  | run1
  | run2
  | queue
  | settleQueued (outcome : Option (List String))
  | settleOwn1 (outcome : Option (List String))
  | settleOwn2 (outcome : Option (List String))
deriving Repr, DecidableEq

def step (c : Config) : Label → Config
  | .run1 =>
    let s := talkStep c.world c.t1
    { c with world := s.1, t1 := s.2 }
  | .run2 =>
    let s := talkStep c.world c.t2
    { c with world := s.1, t2 := s.2 }
  | .queue => { c with world := queueStep c.world }
  | .settleQueued outcome => { c with world := settleQueuedStep outcome c.world }
  | .settleOwn1 outcome =>
    match c.t1 with
    | .waitingOwn =>
      { c with world := applyOutcome outcome c.world, t1 := .ownSettled }
    | _ => c
  | .settleOwn2 outcome =>
    match c.t2 with
    | .waitingOwn =>
      { c with world := applyOutcome outcome c.world, t2 := .ownSettled }
    | _ => c

def run (c : Config) (ls : List Label) : Config :=
  ls.foldl step c

/-- The in-flight-map discipline the spec claims, on the actor state: at
most one registered job, and the map entry present exactly while it runs. -/
def PendingInvW (w : DState) : Prop :=
  w.queuedJobs ≤ 1 ∧ (w.pending = true ↔ w.queuedJobs = 1)

/-- The same discipline on a two-caller configuration. -/
def PendingInv (c : Config) : Prop :=
  PendingInvW c.world

instance (w : DState) : Decidable (PendingInvW w) :=
  inferInstanceAs (Decidable (_ ∧ _))

instance (c : Config) : Decidable (PendingInv c) :=
  inferInstanceAs (Decidable (PendingInvW _))

/-- Initial configuration of the C5 scenario: an uncached actor, nothing
in flight, two callers about to run. -/
def C5init : Config :=
  ⟨⟨"Alice", false, false, [], 0, 0⟩, .start, .start⟩

/-- The interleaving of the C5 scenario: both callers pass the map check
before either generation call settles; then each call settles and its
caller resumes. -/
def C5trace : List Label :=
  [.run1, .run2, .settleOwn1 (some ["Hi", "Yo", "Hm"]),
   .run1, .settleOwn2 (some ["Hi", "Yo", "Hm"]), .run2]

/-- Sequential (single-caller, fully settled) semantics of
`getTalkResponse`'s value, used for the fallback claims: the on-demand
path runs one generation attempt and serves the pool or the neutral
fallback sentence. -/
def talkOnDemand (gen : Option (List String)) (w : DState) : String :=
  match (applyOutcome gen w).cachedResponses with
  | r :: _ => r
  | [] => w.name ++ " looks at you but says nothing."

/-- The retry after awaiting the mapped promise: the job has settled (with
outcome `gen`) and cleared the map entry, and `getTalkResponse` re-runs. -/
def getTalkResponseSettled (gen : Option (List String)) (w : DState) : String :=
  let w2 := applyOutcome gen w
  if w2.responsesReady ∧ w2.cachedResponses ≠ [] then w2.cachedResponses.headD ""
  else talkOnDemand gen w2

/-- `getTalkResponse(charId)` under sequential semantics: unknown actors
get the fixed not-interested line; otherwise serve the pool, else await
the in-flight job and retry, else generate on demand. -/
def getTalkResponseSeq (gen : Option (List String)) (char : Option DState) :
    String :=
  match char with
  | none => "They don't seem interested in talking."
  | some w =>
    if w.responsesReady ∧ w.cachedResponses ≠ [] then w.cachedResponses.headD ""
    else if w.pending then getTalkResponseSettled gen w
    else talkOnDemand gen w

/-- The deterministic factual fallback of `getEventResponse`. -/
def eventFallback (m : CharacterMemory) : String :=
  "I saw " ++ m.witnessedCharName ++ " " ++ m.action ++ " in the " ++
    m.roomName ++ " around " ++ m.time ++ "."

/-- The generate-or-fall-back tail of `getEventResponse`: without the
enrichment client, or when the generation attempt fails (caught), the
factual fallback is synthesized; a successful attempt's text is served
(and cached onto the entry). -/
def eventGenPath (genAvailable : Bool) (genEvent : Option String)
    (m : CharacterMemory) : String :=
  if !genAvailable then eventFallback m
  else
    match genEvent with
    | some r => r
    | none => eventFallback m

/-- `getEventResponse(charId, memory)`: unknown actors get the fixed
no-memory line; a JS-truthy cached reaction (`if (memory.cachedResponse)`,
so a cached empty string does not count) is returned as is; otherwise
generate or fall back. -/
def getEventResponse (genAvailable : Bool) (genEvent : Option String)
    (char : Option DState) (cachedResponse : Option String)
    (m : CharacterMemory) : String :=
  match char with
  | none => "They don't remember."
  | some _ =>
    match cachedResponse with
    | some r => if r = "" then eventGenPath genAvailable genEvent m else r
    | none => eventGenPath genAvailable genEvent m

end Destiny

/-- Witness world for concrete evaluations: a three-room corridor
a ↔ b ↔ c with one character in room a. -/
def wG : Grafitti :=
  { rooms := [⟨"a", "Room A", [("east", "b")]⟩,
              ⟨"b", "Room B", [("west", "a"), ("east", "c")]⟩,
              ⟨"c", "Room C", [("west", "b")]⟩],
    positions := [("c1", "a")] }

/-- Witness schedule: one actor `c1` with a single 18:00 event targeting
room c. -/
def wSched : List (String × List SchedEvent) :=
  [("c1", [⟨"18:00", "walk the corridor", "c"⟩])]

/-- Witness character records matching `wSched` and `wG`. -/
def wChars : List (String × Character) :=
  [("c1", ⟨"c1", "Alice", "a", []⟩)]

/-- Witness cast for the memory claims: the actor `c1` and a co-located
witness `c2` in room a, a bystander `c3` in room b. -/
def wChars7 : List (String × Character) :=
  [("c1", ⟨"c1", "Alice", "a", []⟩),
   ("c2", ⟨"c2", "Bob", "a", []⟩),
   ("c3", ⟨"c3", "Carol", "b", []⟩)]

/-- `s.toLowerCase()`, written on the character list so it reduces in the
kernel (`String.toLower` does not). -/
def toLowerStr (s : String) : String :=
  ⟨s.data.map Char.toLower⟩

/-- JS `x || default` on an optional string: `undefined` and `""` both
fall back. -/
def jsOr (o : Option String) (d : String) : String :=
  match o with
  | some s => if s = "" then d else s
  | none => d

/-- JS truthiness of an optional string (`null` and `""` are falsy). -/
def jsTruthy (o : Option String) : Bool :=
  match o with
  | some s => s ≠ ""
  | none => false

/-- `grafitti.getRoom(id)?.name || id`. -/
def roomNameOr (g : Grafitti) (id : String) : String :=
  jsOr ((Grafitti.getRoom g id).map Room.name) id

/-- One narration line of `ExecutiveDirector.tick`. The concrete template
strings (with `colorName` coloring and the `dirText` parenthetical) carry
no claim-relevant information, so each line is kept as its constructor
data: who moved, the displayed room name, the direction text, and the
scheduled-action text when one was available (JS-truthy). -/
inductive Narration
  | leaves (charName destRoomName direction : String) (action : Option String)
  | enters (charName srcRoomName : String) (action : Option String)
deriving Repr, DecidableEq

/-- One invocation of `destiny.recordWitnessedEvent` made by the tick loop,
with the arguments passed. -/
structure WitnessCall where
  charId : String
  charName : String
  action : String
  roomId : String
  roomName : String
  time : String
deriving Repr, DecidableEq

/-- The mutable state `ExecutiveDirector.tick` works on: the `grafitti`
singleton, the shared character records (also read by `Destiny`), the
messages array being built, and the log of witness-recording calls. -/
structure TickState where
  graf : Grafitti
  characters : List (String × Character)
  messages : List Narration
  witnessCalls : List WitnessCall
deriving Repr, DecidableEq

/-- `characters[charId].currentRoomId = nextStep`: mutate the record under
that key; absent key mutates nothing (`if (char)`). -/
def setCharRoom (characters : List (String × Character))
    (charId roomId : String) : List (String × Character) :=
  characters.map (fun kv =>
    if kv.1 == charId then (kv.1, { kv.2 with currentRoomId := roomId }) else kv)

namespace ExecutiveDirector

/-- `ExecutiveDirector.timeToMinutes`: textually identical to the
Scheduler's helper (likewise no midnight case). -/
def timeToMinutes (timeStr : String) : Nat :=
  match (splitOnColon timeStr.data).map toNatD with
  | h :: m :: _ => h * 60 + m
  | [h] => h * 60
  | [] => 0

/-- `ExecutiveDirector.getScheduledAction(charId, currentTime)`: scan the
actor's events from the end for the latest started one and return its
action lowercased; otherwise `events[0]?.action.toLowerCase() || null`. -/
def getScheduledAction (schedule : Option (List (String × List SchedEvent)))
    (charId currentTime : String) : Option String :=
  match schedule with
  | none => none
  | some sched =>
    match lookupKey sched charId with
    | none => none
    | some events =>
      match events.reverse.find?
          (fun e => timeToMinutes e.time ≤ timeToMinutes currentTime) with
      | some e => some (toLowerStr e.action)
      | none =>
        match events.head? with
        | some e => if toLowerStr e.action = "" then none else some (toLowerStr e.action)
        | none => none

/-- The body of the movement loop in `ExecutiveDirector.tick` for one
intent: fall back to the intent's `from` when the tracker has no position,
take one BFS step (skipping when there is none), move the tracker and the
character record, then narrate for the observer and record the witnessed
event when a scheduled action text is available. -/
def processMove (schedule : Option (List (String × List SchedEvent)))
    (currentTime playerRoomId : String) (st : TickState) (move : Movement) :
    TickState :=
  let currentRoom := jsOr (Grafitti.getCharacterRoom st.graf move.charId) move.fromRoom
  match Grafitti.getNextStep st.graf currentRoom move.toRoom with
  | none => st
  | some nextStep =>
    if nextStep = "" then st
    else
      let oldRoom := currentRoom
      let g2 := (Grafitti.moveCharacter st.graf move.charId nextStep).2
      let chars2 := setCharRoom st.characters move.charId nextStep
      let scheduledAction := getScheduledAction schedule move.charId currentTime
      let actO := if jsTruthy scheduledAction then scheduledAction else none
      let msgs1 :=
        if playerRoomId = oldRoom then
          st.messages ++ [Narration.leaves move.charName (roomNameOr g2 nextStep)
            (jsOr (Grafitti.getDirection g2 oldRoom nextStep) "") actO]
        else st.messages
      let msgs2 :=
        if playerRoomId = nextStep then
          msgs1 ++ [Narration.enters move.charName (roomNameOr g2 oldRoom) actO]
        else msgs1
      if jsTruthy scheduledAction then
        let act := scheduledAction.getD ""
        { graf := g2,
          characters := Destiny.recordWitnessedEvent chars2 move.charId
            move.charName act nextStep (roomNameOr g2 nextStep) currentTime,
          messages := msgs2,
          witnessCalls := st.witnessCalls ++
            [⟨move.charId, move.charName, act, nextStep,
              roomNameOr g2 nextStep, currentTime⟩] }
      else
        { graf := g2, characters := chars2, messages := msgs2,
          witnessCalls := st.witnessCalls }

/-- `ExecutiveDirector.tick(currentTime, playerRoomId, characters)`:
movement intents from `Scheduler.tick` over the pre-tick records, then the
movement loop over them in order. -/
def tick (cachedSchedule : Option (List (String × List SchedEvent)))
    (currentTime playerRoomId : String) (st : TickState) : TickState :=
  (Scheduler.tick cachedSchedule currentTime st.characters).foldl
    (processMove cachedSchedule currentTime playerRoomId) st

end ExecutiveDirector

/-- Initial tick state of the witness world. -/
def wTick0 : TickState :=
  ⟨wG, wChars, [], []⟩

/-- Witness schedule with an empty action text (`action: ""` is a legal
schedule value; `"".toLowerCase()` is falsy in JS). -/
def wSchedEmptyAction : List (String × List SchedEvent) :=
  [("c1", [⟨"18:00", "", "c"⟩])]

namespace Grafitti

theorem getLastD_concat' (a b : String) (l : List String) :
    (l ++ [b]).getLastD a = b := by
  induction l generalizing a with
  | nil => rfl
  | cons x xs ih => rw [List.cons_append, List.getLastD_cons, ih]

theorem chain_concat_iff {R : String → String → Prop} (a b : String) (l : List String) :
    List.Chain R a (l ++ [b]) ↔ List.Chain R a l ∧ R (l.getLastD a) b := by
  induction l generalizing a with
  | nil => simp [List.chain_cons]
  | cons x xs ih =>
    rw [List.cons_append, List.chain_cons, List.chain_cons, ih x, List.getLastD_cons,
      and_assoc]

theorem nodup_subset_dedup_length (l l' : List String) (h : l.Nodup) (hs : l ⊆ l') :
    l.length ≤ l'.dedup.length := by
  have hsp : l.Subperm l'.dedup :=
    h.subperm (by intro x hx; exact (List.mem_dedup).mpr (hs hx))
  exact hsp.length_le

/-- Every exit target (of any room) lies in `allNodes`. -/
theorem adj_subset_allNodes (g : Grafitti) (s u v : String) (hv : v ∈ adj g u) :
    v ∈ allNodes g s := by
  unfold adj adjList getRoom at hv
  cases hfind : (g.rooms.reverse.find? (fun r => r.id == u)) with
  | none => simp [hfind] at hv
  | some r =>
    rw [hfind] at hv
    have hr : r ∈ g.rooms := by
      have := List.mem_of_find?_eq_some hfind
      exact (List.mem_reverse).mp this
    simp only [allNodes, List.mem_cons, List.mem_flatMap]
    exact Or.inr ⟨r, hr, hv⟩

/-- A room whose adjacency is nonempty is a room of the graph. -/
theorem hasRoom_of_adj_ne_nil (g : Grafitti) (u : String) (h : adj g u ≠ []) :
    hasRoom g u = true := by
  unfold adj adjList getRoom at h
  cases hfind : (g.rooms.reverse.find? (fun r => r.id == u)) with
  | none => rw [hfind] at h; simp at h
  | some r =>
    have hr : r ∈ g.rooms := (List.mem_reverse).mp (List.mem_of_find?_eq_some hfind)
    have hid := List.find?_some hfind
    exact List.any_eq_true.mpr ⟨r, hr, hid⟩

theorem enqueueNeighbors_length (nbrs : List String) (visited : List String)
    (path : List String) :
    (enqueueNeighbors nbrs visited path).1.length =
      visited.length + (enqueueNeighbors nbrs visited path).2.length := by
  induction nbrs generalizing visited with
  | nil => simp [enqueueNeighbors]
  | cons n rest ih =>
    by_cases h : n ∈ visited
    · simp [enqueueNeighbors, h, ih]
    · simp only [enqueueNeighbors, h, if_false, List.elem_eq_mem, decide_eq_true_eq,
        List.length_cons]
      rw [ih (n :: visited)]
      simp only [List.length_cons]
      omega

theorem enqueueNeighbors_mem (nbrs : List String) (visited : List String)
    (path : List String) (x : String) :
    x ∈ (enqueueNeighbors nbrs visited path).1 ↔
      x ∈ visited ∨ x ∈ (enqueueNeighbors nbrs visited path).2.map Prod.fst := by
  induction nbrs generalizing visited with
  | nil => simp [enqueueNeighbors]
  | cons n rest ih =>
    by_cases h : n ∈ visited
    · simp [enqueueNeighbors, h, ih]
    · simp only [enqueueNeighbors, h, if_false, List.elem_eq_mem, decide_eq_true_eq,
        List.map_cons]
      rw [ih (n :: visited)]
      simp only [List.mem_cons]
      tauto

theorem enqueueNeighbors_entries (nbrs : List String) (visited : List String)
    (path : List String) (e : String × List String)
    (he : e ∈ (enqueueNeighbors nbrs visited path).2) :
    e.1 ∈ nbrs ∧ e.2 = path ++ [e.1] ∧ e.1 ∉ visited := by
  induction nbrs generalizing visited with
  | nil => simp [enqueueNeighbors] at he
  | cons n rest ih =>
    by_cases h : n ∈ visited
    · simp only [enqueueNeighbors, h, if_true, List.elem_eq_mem, decide_eq_true_eq] at he
      have := ih visited he
      exact ⟨List.mem_cons_of_mem _ this.1, this.2.1, this.2.2⟩
    · simp only [enqueueNeighbors, h, if_false, List.elem_eq_mem, decide_eq_true_eq,
        List.mem_cons] at he
      cases he with
      | inl hl =>
        subst hl
        exact ⟨List.mem_cons_self _ _, rfl, h⟩
      | inr hr =>
        have := ih (n :: visited) hr
        refine ⟨List.mem_cons_of_mem _ this.1, this.2.1, fun hmem => ?_⟩
        exact this.2.2 (List.mem_cons_of_mem _ hmem)

theorem enqueueNeighbors_nodup (nbrs : List String) (visited : List String)
    (path : List String) (h : visited.Nodup) :
    (enqueueNeighbors nbrs visited path).1.Nodup ∧
      ((enqueueNeighbors nbrs visited path).2.map Prod.fst).Nodup := by
  induction nbrs generalizing visited with
  | nil => simpa [enqueueNeighbors] using h
  | cons n rest ih =>
    by_cases hc : n ∈ visited
    · simpa [enqueueNeighbors, hc] using ih visited h
    · have := ih (n :: visited) (List.nodup_cons.mpr ⟨hc, h⟩)
      simp only [enqueueNeighbors, hc, if_false, List.elem_eq_mem, decide_eq_true_eq,
        List.map_cons]
      refine ⟨this.1, List.nodup_cons.mpr ⟨fun hmem => ?_, this.2⟩⟩
      rcases List.mem_map.mp hmem with ⟨e, he, hfst⟩
      have hent := enqueueNeighbors_entries rest (n :: visited) path e he
      exact hent.2.2 (by rw [hfst]; exact List.mem_cons_self _ _)

theorem enqueueNeighbors_covers (nbrs : List String) (visited : List String)
    (path : List String) (n : String) (hn : n ∈ nbrs) :
    n ∈ (enqueueNeighbors nbrs visited path).1 := by
  induction nbrs generalizing visited with
  | nil => simp at hn
  | cons m rest ih =>
    by_cases hc : m ∈ visited
    · rcases List.mem_cons.mp hn with h1 | h2
      · subst h1
        simp only [enqueueNeighbors, hc, if_true, List.elem_eq_mem, decide_eq_true_eq]
        exact (enqueueNeighbors_mem rest visited path n).mpr (Or.inl hc)
      · simpa [enqueueNeighbors, hc] using ih visited h2
    · simp only [enqueueNeighbors, hc, if_false, List.elem_eq_mem, decide_eq_true_eq]
      rcases List.mem_cons.mp hn with h1 | h2
      · subst h1
        exact (enqueueNeighbors_mem rest (n :: visited) path n).mpr
          (Or.inl (List.mem_cons_self _ _))
      · exact ih (m :: visited) h2

theorem enqueueNeighbors_subset (nbrs : List String) (visited : List String)
    (path : List String) :
    visited ⊆ (enqueueNeighbors nbrs visited path).1 := by
  intro x hx
  exact (enqueueNeighbors_mem nbrs visited path x).mpr (Or.inl hx)

theorem pairwise_le_of_all_eq (l : List Nat) (c : Nat) (h : ∀ x ∈ l, x = c) :
    List.Pairwise (· ≤ ·) l := by
  induction l with
  | nil => exact List.Pairwise.nil
  | cons x xs ih =>
    refine List.pairwise_cons.mpr
      ⟨fun y hy => ?_, ih fun y hy => h y (List.mem_cons_of_mem _ hy)⟩
    rw [h x (List.mem_cons_self _ _), h y (List.mem_cons_of_mem _ hy)]

/-- A visited set closed under adjacency swallows every chain that starts
inside it. -/
theorem chain_all_visited (g : Grafitti) (visited : List String)
    (hcl : ∀ u ∈ visited, ∀ v ∈ adj g u, v ∈ visited) :
    ∀ (s : String) (q : List String), s ∈ visited →
      List.Chain (fun a b => b ∈ adj g a) s q → ∀ x ∈ q, x ∈ visited := by
  intro s q
  induction q generalizing s with
  | nil => simp
  | cons y ys ih =>
    intro hs hchain x hx
    rw [List.chain_cons] at hchain
    have hy : y ∈ visited := hcl s hs y hchain.1
    rcases List.mem_cons.mp hx with rfl | hmem
    · exact hy
    · exact ih y hy hchain.2 x hmem

/-- Any walk from `s` to a node outside the visited set is strictly longer
than the queue head's path: the frontier separates `s` from the unvisited
region. -/
theorem bfs_unvisited_far (g : Grafitti) (s t : String) (hd : String × List String)
    (rest : List (String × List String)) (visited : List String)
    (inv : BfsInv g s t (hd :: rest) visited) :
    ∀ q u, pathToOk g s q u → u ∉ visited → hd.2.length + 1 ≤ q.length := by
  suffices h : ∀ n q u, q.length ≤ n → pathToOk g s q u → u ∉ visited →
      hd.2.length + 1 ≤ q.length by
    intro q u hq hu; exact h q.length q u le_rfl hq hu
  intro n
  induction n with
  | zero =>
    intro q u hlen hq hu
    have hq0 : q = [] := List.length_eq_zero.mp (Nat.le_zero.mp hlen)
    subst hq0
    exact absurd (hq.2 ▸ inv.start_vis) hu
  | succ n ih =>
    intro q u hlen hq hu
    rcases Decidable.em (q = []) with hq0 | hqne
    · subst hq0
      exact absurd (hq.2 ▸ inv.start_vis) hu
    · obtain ⟨q', z, hq12⟩ : ∃ q' z, q = q' ++ [z] :=
        ⟨q.dropLast, q.getLast hqne, (List.dropLast_append_getLast hqne).symm⟩
      subst hq12
      obtain ⟨hqc, hql⟩ := hq
      have hz : z = u := by rw [getLastD_concat'] at hql; exact hql
      subst hz
      have hchain := (chain_concat_iff s z q').mp hqc
      have hq' : pathToOk g s q' (q'.getLastD s) := ⟨hchain.1, rfl⟩
      by_cases hw : q'.getLastD s ∈ visited
      · by_cases hwq : ∃ e ∈ hd :: rest, e.1 = q'.getLastD s
        · obtain ⟨e, he, hew⟩ := hwq
          have h1 : e.2.length ≤ q'.length := inv.minimal e he q' (by rw [hew]; exact hq')
          have h2 : hd.2.length ≤ e.2.length := by
            rcases List.mem_cons.mp he with rfl | hmem
            · exact le_rfl
            · have hlv := inv.levels
              rw [List.map_cons] at hlv
              exact (List.pairwise_cons.mp hlv).1 _
                (List.mem_map.mpr ⟨e, hmem, rfl⟩)
          have h3 : (q' ++ [z]).length = q'.length + 1 := by simp
          omega
        · push_neg at hwq
          exact absurd (inv.closure _ hw hwq z hchain.2) hu
      · have hlen' : q'.length ≤ n := by
          have : (q' ++ [z]).length = q'.length + 1 := by simp
          omega
        have hfar := ih q' (q'.getLastD s) hlen' hq' hw
        have h3 : (q' ++ [z]).length = q'.length + 1 := by simp
        omega

/-- Master BFS specification: with a valid invariant and sufficient fuel the
loop returns a genuine shortest path when it returns anything, and returns
`[]` only when no path exists at all. -/
theorem bfsLoop_spec (g : Grafitti) (s t : String) (hst : s ≠ t) :
    ∀ (fuel : Nat) (queue : List (String × List String)) (visited : List String),
      BfsInv g s t queue visited →
      queue.length + 2 * (nodeBound g s - visited.length) < fuel →
      (bfsLoop g t fuel queue visited ≠ [] →
          ValidPath g s (bfsLoop g t fuel queue visited) t ∧
          ∀ q, pathToOk g s q t → (bfsLoop g t fuel queue visited).length ≤ q.length) ∧
      (bfsLoop g t fuel queue visited = [] → ∀ q, ¬ ValidPath g s q t) := by
  intro fuel
  induction fuel with
  | zero => intro queue visited _ hfuel; omega
  | succ fuel ih =>
    intro queue visited inv hfuel
    match queue with
    | [] =>
      refine ⟨fun hne => absurd rfl hne, fun _ q hq => ?_⟩
      obtain ⟨hqne, hqc, hql⟩ := hq
      have hcl : ∀ u ∈ visited, ∀ v ∈ adj g u, v ∈ visited := by
        intro u hu v hv
        exact inv.closure u hu (by simp) v hv
      have hall := chain_all_visited g visited hcl s q inv.start_vis hqc
      have htq : t ∈ q := by
        rw [← hql, List.getLastD_eq_getLast?, List.getLast?_eq_getLast _ hqne]
        exact List.getLast_mem hqne
      have := inv.target_live (hall t htq)
      simp at this
    | (id, p) :: rest =>
      have hhd : (id, p) ∈ (id, p) :: rest := List.mem_cons_self _ _
      have hlast : p.getLastD s = id := inv.ent_last _ hhd
      have hchain : List.Chain (fun a b => b ∈ adj g a) s p := inv.ent_chain _ hhd
      by_cases hid : id = t
      · have hunf : bfsLoop g t (fuel + 1) ((id, p) :: rest) visited = p := by
          simp [bfsLoop, hid]
        rw [hunf]
        constructor
        · intro hpne
          exact ⟨⟨hpne, hchain, hlast.trans hid⟩,
            fun q hq => inv.minimal _ hhd q (by rw [hid]; exact hq)⟩
        · intro hp
          rw [hp] at hlast
          exact absurd (hlast.trans hid) hst
      · have hunf : bfsLoop g t (fuel + 1) ((id, p) :: rest) visited =
            bfsLoop g t fuel (rest ++ (enqueueNeighbors (adj g id) visited p).2)
              (enqueueNeighbors (adj g id) visited p).1 := by
          simp [bfsLoop, hid]
        rw [hunf]
        have hentry := enqueueNeighbors_entries (adj g id) visited p
        have hlvtail := inv.levels
        rw [List.map_cons] at hlvtail
        have hlvhead := (List.pairwise_cons.mp hlvtail).1
        have hlvrest := (List.pairwise_cons.mp hlvtail).2
        have hes_len : ∀ e ∈ (enqueueNeighbors (adj g id) visited p).2,
            e.2.length = p.length + 1 := by
          intro e he
          rw [(hentry e he).2.1]
          simp
        have hes_vis : ∀ e ∈ (enqueueNeighbors (adj g id) visited p).2,
            e.1 ∈ (enqueueNeighbors (adj g id) visited p).1 := by
          intro e he
          exact (enqueueNeighbors_mem _ _ _ _).mpr
            (Or.inr (List.mem_map.mpr ⟨e, he, rfl⟩))
        have hsub := enqueueNeighbors_subset (adj g id) visited p
        have hnodup := enqueueNeighbors_nodup (adj g id) visited p inv.vis_nodup
        refine ih (rest ++ (enqueueNeighbors (adj g id) visited p).2)
          (enqueueNeighbors (adj g id) visited p).1 ?_ ?_
        · constructor
          · exact hsub inv.start_vis
          · intro e he
            rcases List.mem_append.mp he with hr | hn
            · exact inv.ent_chain e (List.mem_cons_of_mem _ hr)
            · rw [(hentry e hn).2.1]
              exact (chain_concat_iff s e.1 p).mpr
                ⟨hchain, by rw [hlast]; exact (hentry e hn).1⟩
          · intro e he
            rcases List.mem_append.mp he with hr | hn
            · exact inv.ent_last e (List.mem_cons_of_mem _ hr)
            · rw [(hentry e hn).2.1, getLastD_concat']
          · intro e he
            rcases List.mem_append.mp he with hr | hn
            · exact hsub (inv.ent_vis e (List.mem_cons_of_mem _ hr))
            · exact hes_vis e hn
          · rw [List.map_append]
            refine List.pairwise_append.mpr ⟨hlvrest, ?_, ?_⟩
            · refine pairwise_le_of_all_eq _ (p.length + 1) ?_
              intro x hx
              rcases List.mem_map.mp hx with ⟨e, he, rfl⟩
              exact hes_len e he
            · intro a ha b hb
              rcases List.mem_map.mp ha with ⟨e, he, rfl⟩
              rcases List.mem_map.mp hb with ⟨f, hf, rfl⟩
              have h1 : e.2.length ≤ p.length + 1 :=
                inv.levels_close e (List.mem_cons_of_mem _ he) _ hhd
              have h2 := hes_len f hf
              omega
          · intro e he f hf
            rcases List.mem_append.mp he with her | hen <;>
              rcases List.mem_append.mp hf with hfr | hfn
            · exact inv.levels_close e (List.mem_cons_of_mem _ her) f
                (List.mem_cons_of_mem _ hfr)
            · have h1 : e.2.length ≤ p.length + 1 :=
                inv.levels_close e (List.mem_cons_of_mem _ her) _ hhd
              have h2 := hes_len f hfn
              omega
            · have h1 : p.length ≤ f.2.length :=
                hlvhead _ (List.mem_map.mpr ⟨f, hfr, rfl⟩)
              have h2 := hes_len e hen
              omega
            · have h1 := hes_len e hen
              have h2 := hes_len f hfn
              omega
          · intro e he q hq
            rcases List.mem_append.mp he with hr | hn
            · exact inv.minimal e (List.mem_cons_of_mem _ hr) q hq
            · have hfar : p.length + 1 ≤ q.length :=
                bfs_unvisited_far g s t (id, p) rest visited inv q e.1 hq
                  (hentry e hn).2.2
              have h2 := hes_len e hn
              omega
          · intro u hu hnotin v hv
            rcases (enqueueNeighbors_mem _ _ _ u).mp hu with huv | hue
            · by_cases huid : u = id
              · subst huid
                exact enqueueNeighbors_covers _ _ _ v hv
              · have : ∀ e ∈ (id, p) :: rest, e.1 ≠ u := by
                  intro e he
                  rcases List.mem_cons.mp he with rfl | hmem
                  · exact fun h => huid h.symm
                  · exact hnotin e (List.mem_append_left _ hmem)
                exact hsub (inv.closure u huv this v hv)
            · rcases List.mem_map.mp hue with ⟨e, he, hfst⟩
              exact absurd hfst (hnotin e (List.mem_append_right _ he))
          · intro ht
            rcases (enqueueNeighbors_mem _ _ _ t).mp ht with htv | hte
            · obtain ⟨e, he, het⟩ := inv.target_live htv
              rcases List.mem_cons.mp he with rfl | hmem
              · exact absurd het hid
              · exact ⟨e, List.mem_append_left _ hmem, het⟩
            · rcases List.mem_map.mp hte with ⟨e, he, hfst⟩
              exact ⟨e, List.mem_append_right _ he, hfst⟩
          · rw [List.map_append]
            rw [List.nodup_append]
            have hrest_ids : (rest.map Prod.fst).Nodup := by
              have := inv.ids_nodup
              rw [List.map_cons] at this
              exact (List.nodup_cons.mp this).2
            refine ⟨hrest_ids, hnodup.2, ?_⟩
            intro a ha hb
            rcases List.mem_map.mp ha with ⟨e, he, rfl⟩
            rcases List.mem_map.mp hb with ⟨f, hf, hfst⟩
            have h1 : e.1 ∈ visited := inv.ent_vis e (List.mem_cons_of_mem _ he)
            have h2 : f.1 ∉ visited := (hentry f hf).2.2
            rw [hfst] at h2
            exact h2 h1
          · exact hnodup.1
          · intro x hx
            rcases (enqueueNeighbors_mem _ _ _ x).mp hx with hv | he
            · exact inv.vis_sub hv
            · rcases List.mem_map.mp he with ⟨e, hee, rfl⟩
              exact adj_subset_allNodes g s id e.1 (hentry e hee).1
        · have hlen := enqueueNeighbors_length (adj g id) visited p
          have hbound : (enqueueNeighbors (adj g id) visited p).1.length ≤
              nodeBound g s := by
            refine nodup_subset_dedup_length _ _ hnodup.1 ?_
            intro x hx
            rcases (enqueueNeighbors_mem _ _ _ x).mp hx with hv | he
            · exact inv.vis_sub hv
            · rcases List.mem_map.mp he with ⟨e, hee, rfl⟩
              exact adj_subset_allNodes g s id e.1 (hentry e hee).1
          have hq : ((id, p) :: rest).length = rest.length + 1 := by simp
          have hq2 : (rest ++ (enqueueNeighbors (adj g id) visited p).2).length =
              rest.length + (enqueueNeighbors (adj g id) visited p).2.length := by
            simp
          omega

/-- `findPath` meets its BFS contract once the early-return guards pass. -/
theorem findPath_spec (g : Grafitti) (s t : String) (hst : s ≠ t)
    (hs : hasRoom g s = true) (ht : hasRoom g t = true) :
    (findPath g s t ≠ [] →
        ValidPath g s (findPath g s t) t ∧
        ∀ q, pathToOk g s q t → (findPath g s t).length ≤ q.length) ∧
    (findPath g s t = [] → ∀ q, ¬ ValidPath g s q t) := by
  have hunf : findPath g s t =
      bfsLoop g t (2 * nodeBound g s + 1) [(s, [])] [s] := by
    simp [findPath, hst, hs, ht]
  have hN : 1 ≤ nodeBound g s := by
    have h1 : s ∈ (allNodes g s).dedup := List.mem_dedup.mpr (List.mem_cons_self _ _)
    unfold nodeBound
    cases hdl : (allNodes g s).dedup with
    | nil => rw [hdl] at h1; simp at h1
    | cons x xs => simp
  rw [hunf]
  refine bfsLoop_spec g s t hst _ [(s, [])] [s] ?_ ?_
  · constructor
    · exact List.mem_cons_self _ _
    · intro e he
      rcases List.mem_singleton.mp he with rfl
      exact List.Chain.nil
    · intro e he
      rcases List.mem_singleton.mp he with rfl
      rfl
    · intro e he
      rcases List.mem_singleton.mp he with rfl
      exact List.mem_cons_self _ _
    · simp
    · intro e he f hf
      rcases List.mem_singleton.mp he with rfl
      rcases List.mem_singleton.mp hf with rfl
      simp
    · intro e he q hq
      rcases List.mem_singleton.mp he with rfl
      simp
    · intro u hu hno v hv
      rcases List.mem_singleton.mp hu with rfl
      exact absurd rfl (hno (u, []) (List.mem_cons_self _ _))
    · intro htv
      rcases List.mem_singleton.mp htv with rfl
      exact absurd rfl (Ne.symm hst)
    · simp
    · simp
    · intro x hx
      rcases List.mem_singleton.mp hx with rfl
      exact List.mem_cons_self _ _
  · simp
    omega

/-- A nonempty `findPath` result implies all three early guards passed. -/
theorem findPath_ne_nil_conditions (g : Grafitti) (s t : String)
    (h : findPath g s t ≠ []) :
    s ≠ t ∧ hasRoom g s = true ∧ hasRoom g t = true := by
  by_cases h1 : s = t
  · exact absurd (by simp [findPath, h1]) h
  by_cases h2 : hasRoom g s = true
  · by_cases h3 : hasRoom g t = true
    · exact ⟨h1, h2, h3⟩
    · have h3f : hasRoom g t = false := by simpa using h3
      exact absurd (by simp [findPath, h1, h3f]) h
  · have h2f : hasRoom g s = false := by simpa using h2
    exact absurd (by simp [findPath, h1, h2f]) h

/-- Everything `getNextStep` promises when it yields a step: the step is a
direct exit of the start, it is a room of the graph, and it heads a genuine
shortest path to the target. -/
theorem getNextStep_spec (g : Grafitti) (s t v : String)
    (h : getNextStep g s t = some v) :
    v ∈ adj g s ∧ hasRoom g v = true ∧
      ValidPath g s (findPath g s t) t ∧
      (findPath g s t).head? = some v ∧
      (∀ q, pathToOk g s q t → (findPath g s t).length ≤ q.length) := by
  have hne : findPath g s t ≠ [] := by
    intro h0; rw [getNextStep, h0] at h; simp at h
  obtain ⟨hst, hs, ht⟩ := findPath_ne_nil_conditions g s t hne
  obtain ⟨hvalid, hmin⟩ := (findPath_spec g s t hst hs ht).1 hne
  have hhead : (findPath g s t).head? = some v := h
  have hc : List.Chain (fun a b => b ∈ adj g a) s (findPath g s t) := hvalid.2.1
  have hl : (findPath g s t).getLastD s = t := hvalid.2.2
  have hkey : v ∈ adj g s ∧ hasRoom g v = true := by
    cases hp : findPath g s t with
    | nil => exact absurd hp hne
    | cons x xs =>
      rw [hp] at hc hl hhead
      have hxv : x = v := by simpa using hhead
      subst hxv
      rw [List.chain_cons] at hc
      refine ⟨hc.1, ?_⟩
      cases xs with
      | nil =>
        rw [List.getLastD_cons] at hl
        have hxt : x = t := hl
        rw [hxt]
        exact ht
      | cons w ws =>
        have hw : w ∈ adj g x := (List.chain_cons.mp hc.2).1
        refine hasRoom_of_adj_ne_nil g x fun h0 => ?_
        rw [h0] at hw
        simp at hw
  exact ⟨hkey.1, hkey.2, hvalid, hhead, hmin⟩

theorem adj_rooms_congr (g g' : Grafitti) (h : g.rooms = g'.rooms) :
    adj g = adj g' := by
  funext id
  unfold adj adjList getRoom
  rw [h]

theorem bfsLoop_rooms_congr (g g' : Grafitti) (h : g.rooms = g'.rooms) (t : String) :
    ∀ fuel queue visited,
      bfsLoop g t fuel queue visited = bfsLoop g' t fuel queue visited := by
  have hadj : adj g = adj g' := adj_rooms_congr g g' h
  intro fuel
  induction fuel with
  | zero => intro queue visited; rfl
  | succ fuel ih =>
    intro queue visited
    match queue with
    | [] => rfl
    | (id, p) :: rest =>
      show (if id == t then p else _) = (if id == t then p else _)
      by_cases hid : (id == t) = true
      · simp [hid]
      · simp only [hid, if_false, Bool.false_eq_true]
        rw [hadj]
        exact ih _ _

/-- `findPath` reads only the room set, never character positions. -/
theorem findPath_rooms_congr (g g' : Grafitti) (h : g.rooms = g'.rooms)
    (s t : String) : findPath g s t = findPath g' s t := by
  have h1 : hasRoom g = hasRoom g' := by
    funext id; unfold hasRoom; rw [h]
  have h2 : nodeBound g s = nodeBound g' s := by
    unfold nodeBound allNodes; rw [h]
  unfold findPath
  rw [h1, h2, bfsLoop_rooms_congr g g' h]

/-- Walk validity reads only the room set. -/
theorem pathToOk_rooms_congr (g g' : Grafitti) (h : g.rooms = g'.rooms)
    (s : String) (p : List String) (t : String) :
    pathToOk g s p t ↔ pathToOk g' s p t := by
  unfold pathToOk
  rw [adj_rooms_congr g g' h]

theorem ValidPath_rooms_congr (g g' : Grafitti) (h : g.rooms = g'.rooms)
    (s : String) (p : List String) (t : String) :
    ValidPath g s p t ↔ ValidPath g' s p t := by
  unfold ValidPath
  rw [pathToOk_rooms_congr g g' h]

theorem moveCharacter_rooms (g : Grafitti) (charId newRoomId : String) :
    (moveCharacter g charId newRoomId).2.rooms = g.rooms := by
  unfold moveCharacter
  by_cases h : hasRoom g newRoomId = true <;> simp [h]

theorem find_map_replace (ps : List (String × String)) (k v : String) :
    (ps.map (fun p => if p.1 == k then (k, v) else p)).find? (fun p => p.1 == k) =
      if ps.any (fun p => p.1 == k) then some (k, v) else none := by
  induction ps with
  | nil => simp
  | cons q qs ih =>
    by_cases hq : (q.1 == k) = true
    · simp [List.find?, hq]
    · simp only [List.map_cons, List.find?, hq, if_false, Bool.false_eq_true, List.any_cons,
        Bool.false_or]
      rw [ih]

theorem find_map_replace_other (ps : List (String × String)) (k v c : String)
    (hck : c ≠ k) :
    (ps.map (fun p => if p.1 == k then (k, v) else p)).find? (fun p => p.1 == c) =
      ps.find? (fun p => p.1 == c) := by
  induction ps with
  | nil => rfl
  | cons q qs ih =>
    by_cases hq : (q.1 == k) = true
    · have hqk : q.1 = k := by simpa using hq
      have hqc : (q.1 == c) = false := by simp [hqk, Ne.symm hck]
      have hkc : (k == c) = false := by simp [Ne.symm hck]
      simp only [List.map_cons, hq, if_true, List.find?_cons, hkc, hqc]
      exact ih
    · simp only [List.map_cons, hq, if_false, Bool.false_eq_true, List.find?_cons]
      cases hqc : (q.1 == c) with
      | true => rfl
      | false => exact ih

theorem find_setKey_other (ps : List (String × String)) (k v c : String)
    (hck : c ≠ k) :
    (setKey ps k v).find? (fun p => p.1 == c) = ps.find? (fun p => p.1 == c) := by
  unfold setKey
  by_cases h : ps.any (fun p => p.1 == k) = true
  · simp only [h, if_true]
    exact find_map_replace_other ps k v c hck
  · simp only [h, if_false, Bool.false_eq_true]
    rw [List.find?_append]
    have hkv : ([(k, v)].find? (fun p => p.1 == c)) = none := by
      simp [Ne.symm hck]
    rw [hkv]
    cases hq : ps.find? (fun p => p.1 == c) <;> rfl

theorem getCharacterRoom_move_self (g : Grafitti) (charId newRoomId : String)
    (h : hasRoom g newRoomId = true) :
    getCharacterRoom (moveCharacter g charId newRoomId).2 charId = some newRoomId := by
  unfold moveCharacter
  simp only [h, if_true]
  unfold getCharacterRoom setKey
  by_cases hp : g.positions.any (fun p => p.1 == charId) = true
  · simp only [hp, if_true]
    rw [find_map_replace, hp]
    rfl
  · simp only [hp, if_false, Bool.false_eq_true]
    rw [List.find?_append]
    have hnone : g.positions.find? (fun p => p.1 == charId) = none := by
      cases hf : g.positions.find? (fun p => p.1 == charId) with
      | none => rfl
      | some q =>
        have := List.find?_some hf
        have hmem := List.mem_of_find?_eq_some hf
        exact absurd (List.any_eq_true.mpr ⟨q, hmem, this⟩) hp
    rw [hnone]
    simp

theorem getCharacterRoom_move_other (g : Grafitti) (charId newRoomId c : String)
    (hc : c ≠ charId) :
    getCharacterRoom (moveCharacter g charId newRoomId).2 c = getCharacterRoom g c := by
  unfold moveCharacter
  by_cases h : hasRoom g newRoomId = true
  · simp only [h, if_true]
    unfold getCharacterRoom
    rw [find_setKey_other _ _ _ _ hc]
  · simp [h]

/-- C9: `moveCharacter(charId, newRoomId)` returns false and leaves every
character's recorded position (indeed the whole tracker state) unchanged
when `newRoomId` is not a room of the loaded graph; when the room exists it
returns true, sets exactly that character's position to `newRoomId`, and
leaves every other character's position unchanged. -/
theorem C9_moveCharacter (g : Grafitti) (charId newRoomId : String) :
    (hasRoom g newRoomId = false →
      (moveCharacter g charId newRoomId).1 = false ∧
      (moveCharacter g charId newRoomId).2 = g) ∧
    (hasRoom g newRoomId = true →
      (moveCharacter g charId newRoomId).1 = true ∧
      getCharacterRoom (moveCharacter g charId newRoomId).2 charId = some newRoomId ∧
      ∀ c, c ≠ charId →
        getCharacterRoom (moveCharacter g charId newRoomId).2 c =
          getCharacterRoom g c) := by
  constructor
  · intro h
    unfold moveCharacter
    simp [h]
  · intro h
    refine ⟨by unfold moveCharacter; simp [h],
      getCharacterRoom_move_self g charId newRoomId h,
      fun c hc => getCharacterRoom_move_other g charId newRoomId c hc⟩

/-- Witness for C9 at a concrete input: moving into an unknown room fails
and changes nothing; moving into room b succeeds and repositions only c1. -/
theorem C9_moveCharacter_witness :
    ((moveCharacter wG "c1" "nowhere").1 = false ∧
      (moveCharacter wG "c1" "nowhere").2 = wG) ∧
    ((moveCharacter wG "c1" "b").1 = true ∧
      getCharacterRoom (moveCharacter wG "c1" "b").2 "c1" = some "b" ∧
      getCharacterRoom (moveCharacter wG "c1" "b").2 "c2" =
        getCharacterRoom wG "c2") :=
  ⟨(C9_moveCharacter wG "c1" "nowhere").1 (by decide),
   (by
    have h := (C9_moveCharacter wG "c1" "b").2 (by decide)
    exact ⟨h.1, h.2.1, h.2.2 "c2" (by decide)⟩)⟩

/-- C1: for every loaded graph and every pair of location ids, `findPath`
returns `[]` when start = target, when either id is not a room, or when no
directed path exists; and when a path exists (start ≠ target, both rooms
known) it returns an ordered id list from (excluding) start to (including)
target whose length is the minimum hop count. -/
theorem C1_findPath_correct (g : Grafitti) (s t : String) :
    (s = t → findPath g s t = []) ∧
    (hasRoom g s = false ∨ hasRoom g t = false → findPath g s t = []) ∧
    ((∀ p, ¬ ValidPath g s p t) → findPath g s t = []) ∧
    (∀ p, ValidPath g s p t → s ≠ t → hasRoom g s = true → hasRoom g t = true →
      ValidPath g s (findPath g s t) t ∧ (findPath g s t).length ≤ p.length) := by
  refine ⟨fun h => by simp [findPath, h], fun h => ?_, fun hno => ?_, ?_⟩
  · by_cases h1 : s = t
    · simp [findPath, h1]
    · rcases h with hf | hf <;> simp [findPath, h1, hf]
  · by_cases h1 : s = t
    · simp [findPath, h1]
    by_cases h2 : hasRoom g s = true
    · by_cases h3 : hasRoom g t = true
      · by_contra hne
        exact hno _ ((findPath_spec g s t h1 h2 h3).1 hne).1
      · have h3f : hasRoom g t = false := by simpa using h3
        simp [findPath, h1, h3f]
    · have h2f : hasRoom g s = false := by simpa using h2
      simp [findPath, h1, h2f]
  · intro p hp hst hs ht
    cases hres : findPath g s t with
    | nil => exact absurd hp ((findPath_spec g s t hst hs ht).2 hres p)
    | cons x xs =>
      have hne : findPath g s t ≠ [] := by rw [hres]; simp
      obtain ⟨hvalid, hmin⟩ := (findPath_spec g s t hst hs ht).1 hne
      have hmin2 := hmin p hp.2
      rw [hres] at hvalid hmin2
      exact ⟨hvalid, hmin2⟩

/-- Witness for C1 at a concrete input: in the corridor world the path
a → c is found, is valid, and has minimal length 2. -/
theorem C1_findPath_correct_witness :
    ValidPath wG "a" (findPath wG "a" "c") "c" ∧
      (findPath wG "a" "c").length ≤ 2 :=
  (C1_findPath_correct wG "a" "c").2.2.2 ["b", "c"] (by decide) (by decide)
    (by decide) (by decide)

end Grafitti

theorem getLast?_cons_or {α : Type} (e : α) (l : List α) :
    (e :: l).getLast? = l.getLast?.or (some e) := by
  cases l with
  | nil => rfl
  | cons x xs =>
    rw [List.getLast?_cons_cons]
    cases hx : (x :: xs).getLast? with
    | none =>
      have := List.getLast?_eq_none_iff.mp hx
      simp at this
    | some z => rfl

theorem pairwise_getLast {α : Type} (R : α → α → Prop) :
    ∀ (l : List α) (z : α), l.Pairwise R → l.getLast? = some z →
      ∀ e ∈ l, e = z ∨ R e z := by
  intro l
  induction l with
  | nil => intro z _ hz; simp at hz
  | cons x xs ih =>
    intro z hp hz e he
    cases xs with
    | nil =>
      simp at hz he
      subst hz he
      exact Or.inl rfl
    | cons y ys =>
      rw [List.getLast?_cons_cons] at hz
      rcases List.mem_cons.mp he with rfl | hmem
      · exact Or.inr ((List.pairwise_cons.mp hp).1 z (List.mem_of_mem_getLast? hz))
      · exact ih z (List.pairwise_cons.mp hp).2 hz e hmem

namespace Scheduler

/-- Sortedness of a schedule in the order the code maintains: event minutes
are pairwise non-decreasing along the list. -/
def EventsSorted (events : List SchedEvent) : Prop :=
  List.Pairwise (fun a b => timeToMinutes a.time ≤ timeToMinutes b.time) events

theorem getTargetEventLoop_eq (T : Nat) :
    ∀ (events : List SchedEvent) (acc : Option SchedEvent),
      getTargetEventLoop T events acc =
        ((events.takeWhile (fun e => timeToMinutes e.time ≤ T)).getLast?).or acc := by
  intro events
  induction events with
  | nil => intro acc; rfl
  | cons e rest ih =>
    intro acc
    by_cases h : timeToMinutes e.time ≤ T
    · rw [show getTargetEventLoop T (e :: rest) acc =
          getTargetEventLoop T rest (some e) from by
            simp [getTargetEventLoop, h]]
      rw [ih (some e), List.takeWhile_cons_of_pos (by simpa using h),
        getLast?_cons_or, Option.or_assoc, show (some e).or acc = some e from rfl]
    · rw [show getTargetEventLoop T (e :: rest) acc = acc from by
          simp [getTargetEventLoop, h]]
      rw [List.takeWhile_cons_of_neg (by simpa using h)]
      rfl

theorem mem_dropWhile_not_le (T : Nat) (events : List SchedEvent)
    (hs : EventsSorted events) (e : SchedEvent)
    (he : e ∈ events.dropWhile (fun x => timeToMinutes x.time ≤ T)) :
    ¬ (timeToMinutes e.time ≤ T) := by
  induction events with
  | nil => simp at he
  | cons x xs ih =>
    by_cases hx : timeToMinutes x.time ≤ T
    · rw [List.dropWhile_cons_of_pos (by simpa using hx)] at he
      exact ih (List.pairwise_cons.mp hs).2 he
    · rw [List.dropWhile_cons_of_neg (by simpa using hx)] at he
      rcases List.mem_cons.mp he with rfl | hmem
      · exact hx
      · have hxe := (List.pairwise_cons.mp hs).1 e hmem
        omega

/-- Target-event resolution on a sorted schedule: nothing resolves when the
current time precedes every entry; something resolves as soon as one entry
has started; and whatever resolves is an entry with the maximal event time
among those that are `<= T`. -/
theorem getTargetEvent_spec (T : Nat) (events : List SchedEvent)
    (hs : EventsSorted events) :
    ((∀ e ∈ events, ¬ timeToMinutes e.time ≤ T) →
      getTargetEvent events T = none) ∧
    (∀ e ∈ events, timeToMinutes e.time ≤ T →
      (getTargetEvent events T).isSome = true) ∧
    (∀ tgt, getTargetEvent events T = some tgt →
      tgt ∈ events ∧ timeToMinutes tgt.time ≤ T ∧
      ∀ e ∈ events, timeToMinutes e.time ≤ T →
        timeToMinutes e.time ≤ timeToMinutes tgt.time) := by
  have heq := getTargetEventLoop_eq T events none
  refine ⟨?_, ?_, ?_⟩
  · intro hall
    rw [getTargetEvent, heq]
    have htw : events.takeWhile (fun e => timeToMinutes e.time ≤ T) = [] := by
      cases hev : events with
      | nil => simp
      | cons x xs =>
        have := hall x (by rw [hev]; exact List.mem_cons_self _ _)
        rw [List.takeWhile_cons_of_neg (by simpa using this)]
    rw [htw]
    rfl
  · intro e he hqual
    rw [getTargetEvent, heq]
    have htw : events.takeWhile (fun x => timeToMinutes x.time ≤ T) ≠ [] := by
      cases hev : events with
      | nil => rw [hev] at he; simp at he
      | cons x xs =>
        have hxq : timeToMinutes x.time ≤ T := by
          rw [hev] at he hs
          rcases List.mem_cons.mp he with rfl | hmem
          · exact hqual
          · have := (List.pairwise_cons.mp hs).1 e hmem
            omega
        rw [List.takeWhile_cons_of_pos (by simpa using hxq)]
        simp
    cases htl : (events.takeWhile (fun x => timeToMinutes x.time ≤ T)).getLast? with
    | none => exact absurd (List.getLast?_eq_none_iff.mp htl) htw
    | some z => rfl
  · intro tgt htgt
    rw [getTargetEvent, heq] at htgt
    cases htl : (events.takeWhile (fun x => timeToMinutes x.time ≤ T)).getLast? with
    | none => rw [htl] at htgt; simp [Option.or] at htgt
    | some z =>
      rw [htl] at htgt
      have hz : z = tgt := by simpa [Option.or] using htgt
      subst hz
      have hztw : z ∈ events.takeWhile (fun x => timeToMinutes x.time ≤ T) :=
        List.mem_of_mem_getLast? htl
      have hzev : z ∈ events := (List.takeWhile_sublist _).subset hztw
      have hzq : timeToMinutes z.time ≤ T := by
        simpa using List.mem_takeWhile_imp hztw
      refine ⟨hzev, hzq, ?_⟩
      intro e he hqual
      have hsplit := List.takeWhile_append_dropWhile
        (p := fun x => timeToMinutes x.time ≤ T) (l := events)
      have hmem2 : e ∈ events.takeWhile (fun x => timeToMinutes x.time ≤ T) ∨
          e ∈ events.dropWhile (fun x => timeToMinutes x.time ≤ T) := by
        rw [← List.mem_append, hsplit]
        exact he
      rcases hmem2 with hin | hin
      · have hptw : List.Pairwise
            (fun a b => timeToMinutes a.time ≤ timeToMinutes b.time)
            (events.takeWhile (fun x => timeToMinutes x.time ≤ T)) :=
          hs.sublist (List.takeWhile_sublist _)
        rcases pairwise_getLast _ _ z hptw htl e hin with rfl | hle
        · exact le_rfl
        · exact hle
      · exact absurd hqual (mem_dropWhile_not_le T events hs e hin)

theorem tickEntry_charId (T : Nat) (characters : List (String × Character))
    (entry : String × List SchedEvent) (mv : Movement)
    (h : tickEntry T characters entry = some mv) : mv.charId = entry.1 := by
  unfold tickEntry at h
  split at h
  · simp at h
  · split at h
    · simp at h
    · split at h
      · simp at h
      · split at h
        · simp at h
        · rw [← Option.some.inj h]

/-- With unique schedule keys, the intents carrying a given actor id are
exactly what that actor's own schedule entry produces. -/
theorem tick_filter_key (T : Nat) (characters : List (String × Character))
    (sched : List (String × List SchedEvent)) (cid : String)
    (entry : String × List SchedEvent)
    (hnodup : (sched.map Prod.fst).Nodup)
    (hmem : entry ∈ sched) (hkey : entry.1 = cid) :
    (sched.filterMap (tickEntry T characters)).filter
        (fun mv => mv.charId == cid) =
      (tickEntry T characters entry).toList := by
  induction sched with
  | nil => simp at hmem
  | cons e rest ih =>
    rw [List.map_cons, List.nodup_cons] at hnodup
    rcases List.mem_cons.mp hmem with rfl | hmem2
    · have hrest : (rest.filterMap (tickEntry T characters)).filter
          (fun mv => mv.charId == cid) = [] := by
        rw [List.filter_eq_nil_iff]
        intro mv hmv
        rcases List.mem_filterMap.mp hmv with ⟨entry2, hent2, hprod⟩
        have := tickEntry_charId T characters entry2 mv hprod
        have hne : entry2.1 ≠ cid := fun hcontra =>
          hnodup.1 (List.mem_map.mpr ⟨entry2, hent2, hcontra.trans hkey.symm⟩)
        simp [this, hne]
      cases hf : tickEntry T characters entry with
      | none => simp [List.filterMap_cons, hf, hrest]
      | some mv =>
        have hcid := tickEntry_charId T characters entry mv hf
        simp [List.filterMap_cons, hf, List.filter_cons, hcid, hkey, hrest]
    · have hne : e.1 ≠ cid := fun hcontra =>
        hnodup.1 (List.mem_map.mpr ⟨entry, hmem2, hkey.trans hcontra.symm⟩)
      cases hf : tickEntry T characters e with
      | none =>
        rw [List.filterMap_cons, hf]
        exact ih hnodup.2 hmem2
      | some mv =>
        have hcid := tickEntry_charId T characters e mv hf
        rw [List.filterMap_cons, hf]
        rw [List.filter_cons]
        have : (mv.charId == cid) = false := by simp [hcid, hne]
        rw [this]
        exact ih hnodup.2 hmem2

/-- C2: for every actor with a non-empty sorted schedule and current time
`T`, `Scheduler.tick` resolves the target event as the entry with the
latest time `<= T` (it qualifies and dominates every qualifying entry); if
`T` precedes every entry no intent is emitted for that actor; if the
resolved entry's location equals the actor's current room no intent is
emitted; otherwise exactly one intent
`{actorId, from: current room, to: target location}` is emitted. -/
theorem C2_scheduler_tick (sched : List (String × List SchedEvent))
    (currentTime : String) (characters : List (String × Character))
    (charId : String) (events : List SchedEvent) (char : Character)
    (hnodup : (sched.map Prod.fst).Nodup)
    (hmem : (charId, events) ∈ sched)
    (hchar : lookupKey characters charId = some char)
    (hsorted : EventsSorted events)
    (hne : events ≠ []) :
    ((∀ e ∈ events, ¬ timeToMinutes e.time ≤ timeToMinutes currentTime) →
      (tick (some sched) currentTime characters).filter
        (fun mv => mv.charId == charId) = []) ∧
    (∀ e ∈ events, timeToMinutes e.time ≤ timeToMinutes currentTime →
      (getTargetEvent events (timeToMinutes currentTime)).isSome = true) ∧
    (∀ tgt, getTargetEvent events (timeToMinutes currentTime) = some tgt →
      (timeToMinutes tgt.time ≤ timeToMinutes currentTime ∧
        ∀ e ∈ events, timeToMinutes e.time ≤ timeToMinutes currentTime →
          timeToMinutes e.time ≤ timeToMinutes tgt.time) ∧
      (tgt.locationId = char.currentRoomId →
        (tick (some sched) currentTime characters).filter
          (fun mv => mv.charId == charId) = []) ∧
      (tgt.locationId ≠ char.currentRoomId →
        (tick (some sched) currentTime characters).filter
          (fun mv => mv.charId == charId) =
          [⟨charId, char.name, char.currentRoomId, tgt.locationId⟩])) := by
  have hkey := tick_filter_key (timeToMinutes currentTime) characters sched charId
    (charId, events) hnodup hmem rfl
  have hspec := getTargetEvent_spec (timeToMinutes currentTime) events hsorted
  have hempty : events.isEmpty = false := by
    cases events with
    | nil => exact absurd rfl hne
    | cons x xs => rfl
  have htick : tick (some sched) currentTime characters =
      sched.filterMap (tickEntry (timeToMinutes currentTime) characters) := rfl
  refine ⟨?_, hspec.2.1, ?_⟩
  · intro hall
    have hnone := hspec.1 hall
    have htE : tickEntry (timeToMinutes currentTime) characters (charId, events) =
        none := by
      simp only [tickEntry, hchar, hempty, hnone]
      rfl
    rw [htick, hkey, htE]
    rfl
  · intro tgt htgt
    obtain ⟨-, hq, hmax⟩ := hspec.2.2 tgt htgt
    refine ⟨⟨hq, hmax⟩, ?_, ?_⟩
    · intro hloc
      have hbeq : (char.currentRoomId == tgt.locationId) = true := by
        simp [hloc]
      have htE : tickEntry (timeToMinutes currentTime) characters (charId, events) =
          none := by
        simp only [tickEntry, hchar, hempty, htgt, hbeq]
        rfl
      rw [htick, hkey, htE]
      rfl
    · intro hloc
      have hbeq : (char.currentRoomId == tgt.locationId) = false := by
        rw [beq_eq_false_iff_ne]
        exact fun h => hloc h.symm
      have htE : tickEntry (timeToMinutes currentTime) characters (charId, events) =
          some ⟨charId, char.name, char.currentRoomId, tgt.locationId⟩ := by
        simp only [tickEntry, hchar, hempty, htgt, hbeq]
        rfl
      rw [htick, hkey, htE]
      rfl

/-- Witness for C2 at a concrete input: in the witness world, at 18:00 the
single 18:00 event resolves and exactly the intent c1: a → c is emitted. -/
theorem C2_scheduler_tick_witness :
    (tick (some wSched) "18:00" wChars).filter (fun mv => mv.charId == "c1") =
      [⟨"c1", "Alice", "a", "c"⟩] :=
  (((C2_scheduler_tick wSched "18:00" wChars "c1"
      [⟨"18:00", "walk the corridor", "c"⟩] ⟨"c1", "Alice", "a", []⟩
      (by decide) (by decide) (by decide)
      (List.pairwise_singleton _ _) (by decide)).2.2
    ⟨"18:00", "walk the corridor", "c"⟩ (by decide)).2.2 (by decide))

end Scheduler

namespace Destiny

/-- C7: `recordWitnessedEvent(actorId, actorName, action, locationId,
locationName, time)` preserves the character list shape; the acting
actor's own record (its memory log included) is unchanged; every character
not currently located at `locationId` is unchanged; and every other
character located at `locationId` gets exactly one new memory entry
appended, recording the time, room, acting actor, and action. -/
theorem C7_recordWitnessedEvent (characters : List (String × Character))
    (actorId actorName action roomId roomName time : String) :
    (recordWitnessedEvent characters actorId actorName action roomId roomName
        time).length = characters.length ∧
    ∀ (i : Nat) (kv : String × Character), characters[i]? = some kv →
      ((kv.2.id = actorId →
        (recordWitnessedEvent characters actorId actorName action roomId
          roomName time)[i]? = some kv) ∧
       (kv.2.currentRoomId ≠ roomId →
        (recordWitnessedEvent characters actorId actorName action roomId
          roomName time)[i]? = some kv) ∧
       (kv.2.id ≠ actorId → kv.2.currentRoomId = roomId →
        (recordWitnessedEvent characters actorId actorName action roomId
          roomName time)[i]? = some (kv.1, { kv.2 with
            memory := kv.2.memory ++
              [⟨time, roomId, roomName, actorId, actorName, action⟩] }))) := by
  constructor
  · unfold recordWitnessedEvent
    exact List.length_map _ _
  · intro i kv hkv
    have hm : (recordWitnessedEvent characters actorId actorName action roomId
        roomName time)[i]? =
        some (witnessEntry actorId actorName action roomId roomName time kv) := by
      unfold recordWitnessedEvent
      rw [List.getElem?_map, hkv]
      rfl
    refine ⟨?_, ?_, ?_⟩
    · intro hid
      rw [hm]
      have hb : (kv.2.id == actorId) = true := by simp [hid]
      unfold witnessEntry
      rw [if_pos hb]
    · intro hroom
      rw [hm]
      unfold witnessEntry
      by_cases hb : (kv.2.id == actorId) = true
      · rw [if_pos hb]
      · rw [if_neg hb, if_pos (by simpa [bne_iff_ne] using hroom)]
    · intro hid hroom
      rw [hm]
      unfold witnessEntry
      rw [if_neg (by simpa using hid),
        if_neg (by simp [bne_iff_ne, hroom])]

/-- Witness for C7 at a concrete input: recording an action of c1 in room
a leaves c1 and (elsewhere-located) c3 unchanged and appends exactly one
entry to co-located c2's memory. -/
theorem C7_recordWitnessedEvent_witness :
    (recordWitnessedEvent wChars7 "c1" "Alice" "polishes the silver" "a"
        "Room A" "18:00")[0]? = some ("c1", ⟨"c1", "Alice", "a", []⟩) ∧
    (recordWitnessedEvent wChars7 "c1" "Alice" "polishes the silver" "a"
        "Room A" "18:00")[2]? = some ("c3", ⟨"c3", "Carol", "b", []⟩) ∧
    (recordWitnessedEvent wChars7 "c1" "Alice" "polishes the silver" "a"
        "Room A" "18:00")[1]? = some ("c2", ⟨"c2", "Bob", "a",
          [⟨"18:00", "a", "Room A", "c1", "Alice", "polishes the silver"⟩]⟩) :=
  ⟨((C7_recordWitnessedEvent wChars7 "c1" "Alice" "polishes the silver" "a"
      "Room A" "18:00").2 0 ("c1", ⟨"c1", "Alice", "a", []⟩) rfl).1 rfl,
   ((C7_recordWitnessedEvent wChars7 "c1" "Alice" "polishes the silver" "a"
      "Room A" "18:00").2 2 ("c3", ⟨"c3", "Carol", "b", []⟩) rfl).2.1
      (by decide),
   ((C7_recordWitnessedEvent wChars7 "c1" "Alice" "polishes the silver" "a"
      "Room A" "18:00").2 1 ("c2", ⟨"c2", "Bob", "a", []⟩) rfl).2.2
      (by decide) rfl⟩

end Destiny

namespace ExecutiveDirector

theorem processMove_skip (schedule : Option (List (String × List SchedEvent)))
    (ct pr : String) (st : TickState) (move : Movement)
    (h : Grafitti.getNextStep st.graf
      (jsOr (Grafitti.getCharacterRoom st.graf move.charId) move.fromRoom)
      move.toRoom = none) :
    processMove schedule ct pr st move = st := by
  simp only [processMove, h]

theorem processMove_skip_empty (schedule : Option (List (String × List SchedEvent)))
    (ct pr : String) (st : TickState) (move : Movement)
    (h : Grafitti.getNextStep st.graf
      (jsOr (Grafitti.getCharacterRoom st.graf move.charId) move.fromRoom)
      move.toRoom = some "") :
    processMove schedule ct pr st move = st := by
  simp only [processMove, h]
  rfl

theorem processMove_hop_graf (schedule : Option (List (String × List SchedEvent)))
    (ct pr : String) (st : TickState) (move : Movement) (next : String)
    (hnext : Grafitti.getNextStep st.graf
      (jsOr (Grafitti.getCharacterRoom st.graf move.charId) move.fromRoom)
      move.toRoom = some next)
    (hne : next ≠ "") :
    (processMove schedule ct pr st move).graf =
      (Grafitti.moveCharacter st.graf move.charId next).2 := by
  simp only [processMove, hnext]
  rw [if_neg hne]
  by_cases ht : jsTruthy (getScheduledAction schedule move.charId ct) = true <;>
    simp [ht]

theorem processMove_hop_chars (schedule : Option (List (String × List SchedEvent)))
    (ct pr : String) (st : TickState) (move : Movement) (next : String)
    (hnext : Grafitti.getNextStep st.graf
      (jsOr (Grafitti.getCharacterRoom st.graf move.charId) move.fromRoom)
      move.toRoom = some next)
    (hne : next ≠ "") :
    (processMove schedule ct pr st move).characters =
      (if jsTruthy (getScheduledAction schedule move.charId ct) then
        Destiny.recordWitnessedEvent (setCharRoom st.characters move.charId next)
          move.charId move.charName
          ((getScheduledAction schedule move.charId ct).getD "") next
          (roomNameOr (Grafitti.moveCharacter st.graf move.charId next).2 next) ct
      else setCharRoom st.characters move.charId next) := by
  simp only [processMove, hnext]
  rw [if_neg hne]
  by_cases ht : jsTruthy (getScheduledAction schedule move.charId ct) = true <;>
    simp [ht]

theorem witnessEntry_fst (actorId actorName action roomId roomName time : String)
    (kv : String × Character) :
    (Destiny.witnessEntry actorId actorName action roomId roomName time kv).1 =
      kv.1 := by
  unfold Destiny.witnessEntry
  by_cases h1 : (kv.2.id == actorId) = true
  · rw [if_pos h1]
  · rw [if_neg h1]
    by_cases h2 : (kv.2.currentRoomId != roomId) = true
    · rw [if_pos h2]
    · rw [if_neg h2]

theorem witnessEntry_room (actorId actorName action roomId roomName time : String)
    (kv : String × Character) :
    (Destiny.witnessEntry actorId actorName action roomId roomName time
      kv).2.currentRoomId = kv.2.currentRoomId := by
  unfold Destiny.witnessEntry
  by_cases h1 : (kv.2.id == actorId) = true
  · rw [if_pos h1]
  · rw [if_neg h1]
    by_cases h2 : (kv.2.currentRoomId != roomId) = true
    · rw [if_pos h2]
    · rw [if_neg h2]

theorem lookupKey_recordWitnessedEvent_room
    (chars : List (String × Character))
    (actorId actorName action roomId roomName time k : String) :
    (lookupKey (Destiny.recordWitnessedEvent chars actorId actorName action
        roomId roomName time) k).map Character.currentRoomId =
      (lookupKey chars k).map Character.currentRoomId := by
  induction chars with
  | nil => rfl
  | cons kv rest ih =>
    unfold Destiny.recordWitnessedEvent at ih ⊢
    rw [List.map_cons]
    unfold lookupKey at ih ⊢
    rw [List.find?_cons, List.find?_cons,
      witnessEntry_fst actorId actorName action roomId roomName time kv]
    by_cases hk : (kv.1 == k) = true
    · simp only [hk]
      simp [witnessEntry_room actorId actorName action roomId roomName time kv]
    · simp only [hk]
      exact ih

theorem lookupKey_setCharRoom_self (chars : List (String × Character))
    (cid roomId : String) :
    lookupKey (setCharRoom chars cid roomId) cid =
      (lookupKey chars cid).map (fun c => { c with currentRoomId := roomId }) := by
  induction chars with
  | nil => rfl
  | cons kv rest ih =>
    unfold setCharRoom at ih ⊢
    rw [List.map_cons]
    unfold lookupKey at ih ⊢
    by_cases hk : (kv.1 == cid) = true
    · rw [if_pos hk]
      rw [List.find?_cons, List.find?_cons]
      simp only [hk]
      rfl
    · rw [if_neg hk]
      rw [List.find?_cons, List.find?_cons]
      simp only [hk]
      exact ih

theorem processMove_graf_other (schedule : Option (List (String × List SchedEvent)))
    (ct pr : String) (st : TickState) (move : Movement) (c : String)
    (hc : c ≠ move.charId) :
    Grafitti.getCharacterRoom (processMove schedule ct pr st move).graf c =
      Grafitti.getCharacterRoom st.graf c := by
  cases hn : Grafitti.getNextStep st.graf
      (jsOr (Grafitti.getCharacterRoom st.graf move.charId) move.fromRoom)
      move.toRoom with
  | none => rw [processMove_skip schedule ct pr st move hn]
  | some next =>
    by_cases hne : next = ""
    · subst hne
      rw [processMove_skip_empty schedule ct pr st move hn]
    · rw [processMove_hop_graf schedule ct pr st move next hn hne]
      exact Grafitti.getCharacterRoom_move_other st.graf move.charId next c hc

theorem processMove_rooms (schedule : Option (List (String × List SchedEvent)))
    (ct pr : String) (st : TickState) (move : Movement) :
    (processMove schedule ct pr st move).graf.rooms = st.graf.rooms := by
  cases hn : Grafitti.getNextStep st.graf
      (jsOr (Grafitti.getCharacterRoom st.graf move.charId) move.fromRoom)
      move.toRoom with
  | none => rw [processMove_skip schedule ct pr st move hn]
  | some next =>
    by_cases hne : next = ""
    · subst hne
      rw [processMove_skip_empty schedule ct pr st move hn]
    · rw [processMove_hop_graf schedule ct pr st move next hn hne]
      exact Grafitti.moveCharacter_rooms st.graf move.charId next

theorem foldl_processMove_other (schedule : Option (List (String × List SchedEvent)))
    (ct pr : String) (c : String) :
    ∀ (ms : List Movement) (st : TickState), c ∉ ms.map Movement.charId →
      Grafitti.getCharacterRoom
        (ms.foldl (processMove schedule ct pr) st).graf c =
        Grafitti.getCharacterRoom st.graf c := by
  intro ms
  induction ms with
  | nil => intro st _; rfl
  | cons mv rest ih =>
    intro st hnotin
    rw [List.map_cons, List.mem_cons] at hnotin
    push_neg at hnotin
    rw [List.foldl_cons, ih _ hnotin.2,
      processMove_graf_other schedule ct pr st mv c hnotin.1]

theorem foldl_processMove_rooms (schedule : Option (List (String × List SchedEvent)))
    (ct pr : String) :
    ∀ (ms : List Movement) (st : TickState),
      (ms.foldl (processMove schedule ct pr) st).graf.rooms = st.graf.rooms := by
  intro ms
  induction ms with
  | nil => intro st; rfl
  | cons mv rest ih =>
    intro st
    rw [List.foldl_cons, ih, processMove_rooms]

/-- C10: after each movement processed within a tick that results in a
hop, the world tracker's position map and the caller-supplied character
records agree for the moved character: `getCharacterRoom(charId)` equals
`characters[charId].currentRoomId`, both set to the same next-hop room. -/
theorem C10_position_sync (schedule : Option (List (String × List SchedEvent)))
    (currentTime playerRoomId : String) (st : TickState) (move : Movement)
    (next : String) (c : Character)
    (hnext : Grafitti.getNextStep st.graf
      (jsOr (Grafitti.getCharacterRoom st.graf move.charId) move.fromRoom)
      move.toRoom = some next)
    (hne : next ≠ "")
    (hchar : lookupKey st.characters move.charId = some c) :
    Grafitti.getCharacterRoom
        (processMove schedule currentTime playerRoomId st move).graf
        move.charId = some next ∧
    (lookupKey (processMove schedule currentTime playerRoomId st
        move).characters move.charId).map Character.currentRoomId =
      some next := by
  have hroom : Grafitti.hasRoom st.graf next = true :=
    (Grafitti.getNextStep_spec st.graf _ move.toRoom next hnext).2.1
  constructor
  · rw [processMove_hop_graf schedule currentTime playerRoomId st move next
      hnext hne]
    exact Grafitti.getCharacterRoom_move_self st.graf move.charId next hroom
  · rw [processMove_hop_chars schedule currentTime playerRoomId st move next
      hnext hne]
    by_cases ht : jsTruthy (getScheduledAction schedule move.charId
        currentTime) = true
    · rw [if_pos ht, lookupKey_recordWitnessedEvent_room,
        lookupKey_setCharRoom_self, hchar]
      rfl
    · rw [if_neg ht, lookupKey_setCharRoom_self, hchar]
      rfl

/-- Witness for C10 at a concrete input: processing the intent c1: a → c
in the corridor world leaves tracker and record agreeing on room b. -/
theorem C10_position_sync_witness :
    Grafitti.getCharacterRoom
        (processMove (some wSched) "18:00" "a" wTick0
          ⟨"c1", "Alice", "a", "c"⟩).graf "c1" = some "b" ∧
    (lookupKey (processMove (some wSched) "18:00" "a" wTick0
        ⟨"c1", "Alice", "a", "c"⟩).characters "c1").map
      Character.currentRoomId = some "b" :=
  C10_position_sync (some wSched) "18:00" "a" wTick0 ⟨"c1", "Alice", "a", "c"⟩
    "b" ⟨"c1", "Alice", "a", []⟩ (by decide) (by decide) (by decide)

/-- C3: in every tick every actor's position changes by at most one hop —
it is unchanged, or there is a movement intent for the actor and the new
position is exactly the first step of the BFS shortest path from its
pre-tick room toward the intent's target, a direct exit of that room.
Concretely, in the corridor world with a schedule targeting room c, three
consecutive ticks move the actor a → b → c (→ c), never skipping a hop. -/
theorem C3_one_hop_per_tick :
    (∀ (schedule : Option (List (String × List SchedEvent)))
       (currentTime playerRoomId : String) (st : TickState) (cid : String),
      ((Scheduler.tick schedule currentTime st.characters).map
        Movement.charId).Nodup →
      (Grafitti.getCharacterRoom
          (tick schedule currentTime playerRoomId st).graf cid =
        Grafitti.getCharacterRoom st.graf cid ∨
       ∃ mv ∈ Scheduler.tick schedule currentTime st.characters,
         mv.charId = cid ∧
         ∃ next,
           Grafitti.getNextStep st.graf
             (jsOr (Grafitti.getCharacterRoom st.graf cid) mv.fromRoom)
             mv.toRoom = some next ∧
           next ∈ Grafitti.adj st.graf
             (jsOr (Grafitti.getCharacterRoom st.graf cid) mv.fromRoom) ∧
           Grafitti.ValidPath st.graf
             (jsOr (Grafitti.getCharacterRoom st.graf cid) mv.fromRoom)
             (Grafitti.findPath st.graf
               (jsOr (Grafitti.getCharacterRoom st.graf cid) mv.fromRoom)
               mv.toRoom) mv.toRoom ∧
           (∀ q, Grafitti.pathToOk st.graf
               (jsOr (Grafitti.getCharacterRoom st.graf cid) mv.fromRoom) q
               mv.toRoom →
             (Grafitti.findPath st.graf
               (jsOr (Grafitti.getCharacterRoom st.graf cid) mv.fromRoom)
               mv.toRoom).length ≤ q.length) ∧
           Grafitti.getCharacterRoom
             (tick schedule currentTime playerRoomId st).graf cid =
             some next)) ∧
    (Grafitti.getCharacterRoom
        (tick (some wSched) "18:00" "a" wTick0).graf "c1" = some "b" ∧
     Grafitti.getCharacterRoom
        (tick (some wSched) "18:00" "a"
          (tick (some wSched) "18:00" "a" wTick0)).graf "c1" = some "c" ∧
     Grafitti.getCharacterRoom
        (tick (some wSched) "18:00" "a"
          (tick (some wSched) "18:00" "a"
            (tick (some wSched) "18:00" "a" wTick0))).graf "c1" =
       some "c") := by
  constructor
  · intro schedule ct pr st cid hnodup
    by_cases hin : cid ∈ (Scheduler.tick schedule ct st.characters).map
        Movement.charId
    · obtain ⟨mv, hmv, hcid⟩ := List.mem_map.mp hin
      obtain ⟨pre, post, hsplit⟩ := List.append_of_mem hmv
      have hnodup2 := hnodup
      rw [hsplit, List.map_append, List.map_cons] at hnodup2
      have hnd := List.nodup_append.mp hnodup2
      have hpre : cid ∉ pre.map Movement.charId := by
        intro hc
        exact hnd.2.2 hc (by rw [← hcid]; exact List.mem_cons_self _ _)
      have hpost : cid ∉ post.map Movement.charId := by
        have := (List.nodup_cons.mp hnd.2.1).1
        rw [hcid] at this
        exact this
      have hpos1 : Grafitti.getCharacterRoom
          (pre.foldl (processMove schedule ct pr) st).graf cid =
          Grafitti.getCharacterRoom st.graf cid :=
        foldl_processMove_other schedule ct pr cid pre st hpre
      have hrooms1 : (pre.foldl (processMove schedule ct pr) st).graf.rooms =
          st.graf.rooms :=
        foldl_processMove_rooms schedule ct pr pre st
      have htick : tick schedule ct pr st =
          post.foldl (processMove schedule ct pr)
            (processMove schedule ct pr
              (pre.foldl (processMove schedule ct pr) st) mv) := by
        rw [tick, hsplit, List.foldl_append, List.foldl_cons]
      have ho : jsOr (Grafitti.getCharacterRoom
            (pre.foldl (processMove schedule ct pr) st).graf mv.charId)
            mv.fromRoom =
          jsOr (Grafitti.getCharacterRoom st.graf cid) mv.fromRoom := by
        rw [hcid, hpos1]
      have hns : Grafitti.getNextStep
          (pre.foldl (processMove schedule ct pr) st).graf
          (jsOr (Grafitti.getCharacterRoom
            (pre.foldl (processMove schedule ct pr) st).graf mv.charId)
            mv.fromRoom) mv.toRoom =
          Grafitti.getNextStep st.graf
          (jsOr (Grafitti.getCharacterRoom st.graf cid) mv.fromRoom)
          mv.toRoom := by
        rw [ho]
        unfold Grafitti.getNextStep
        rw [Grafitti.findPath_rooms_congr _ st.graf hrooms1]
      cases hn : Grafitti.getNextStep st.graf
          (jsOr (Grafitti.getCharacterRoom st.graf cid) mv.fromRoom)
          mv.toRoom with
      | none =>
        left
        rw [htick, processMove_skip schedule ct pr _ mv (by rw [hns]; exact hn),
          foldl_processMove_other schedule ct pr cid post _ hpost, hpos1]
      | some next =>
        by_cases hne : next = ""
        · subst hne
          left
          rw [htick,
            processMove_skip_empty schedule ct pr _ mv (by rw [hns]; exact hn),
            foldl_processMove_other schedule ct pr cid post _ hpost, hpos1]
        · right
          have hspec0 := Grafitti.getNextStep_spec
            (pre.foldl (processMove schedule ct pr) st).graf
            (jsOr (Grafitti.getCharacterRoom
              (pre.foldl (processMove schedule ct pr) st).graf mv.charId)
              mv.fromRoom)
            mv.toRoom next (by rw [hns]; exact hn)
          have hfpeq : Grafitti.findPath
              (pre.foldl (processMove schedule ct pr) st).graf
              (jsOr (Grafitti.getCharacterRoom st.graf cid) mv.fromRoom)
              mv.toRoom =
              Grafitti.findPath st.graf
              (jsOr (Grafitti.getCharacterRoom st.graf cid) mv.fromRoom)
              mv.toRoom :=
            Grafitti.findPath_rooms_congr _ st.graf hrooms1 _ _
          refine ⟨mv, hmv, hcid, next, hn, ?_, ?_, ?_, ?_⟩
          · have hadj := hspec0.1
            have hadjeq : Grafitti.adj
                (pre.foldl (processMove schedule ct pr) st).graf =
                Grafitti.adj st.graf :=
              Grafitti.adj_rooms_congr _ st.graf hrooms1
            rw [hadjeq, ho] at hadj
            exact hadj
          · have hvp := hspec0.2.2.1
            rw [ho, hfpeq] at hvp
            exact (Grafitti.ValidPath_rooms_congr _ st.graf hrooms1 _ _ _).mp hvp
          · intro q hq
            have hq1 : Grafitti.pathToOk
                (pre.foldl (processMove schedule ct pr) st).graf
                (jsOr (Grafitti.getCharacterRoom st.graf cid) mv.fromRoom) q
                mv.toRoom :=
              (Grafitti.pathToOk_rooms_congr _ st.graf hrooms1 _ _ _).mpr hq
            rw [← ho] at hq1
            have hmin := hspec0.2.2.2.2 q hq1
            rw [ho, hfpeq] at hmin
            exact hmin
          · have hspec := Grafitti.getNextStep_spec
              (pre.foldl (processMove schedule ct pr) st).graf
              (jsOr (Grafitti.getCharacterRoom
                (pre.foldl (processMove schedule ct pr) st).graf mv.charId)
                mv.fromRoom)
              mv.toRoom next (by rw [hns]; exact hn)
            rw [htick,
              foldl_processMove_other schedule ct pr cid post _ hpost,
              processMove_hop_graf schedule ct pr _ mv next
                (by rw [hns]; exact hn) hne, ← hcid]
            exact Grafitti.getCharacterRoom_move_self _ mv.charId next
              hspec.2.1
    · left
      exact foldl_processMove_other schedule ct pr cid _ st hin
  · exact ⟨by decide, by decide, by decide⟩

/-- Witness for C3 at a concrete input: one tick of the corridor world,
instantiating the general one-hop statement for actor c1. -/
theorem C3_one_hop_per_tick_witness :
    Grafitti.getCharacterRoom
        (tick (some wSched) "18:00" "a" wTick0).graf "c1" =
      Grafitti.getCharacterRoom wTick0.graf "c1" ∨
    ∃ mv ∈ Scheduler.tick (some wSched) "18:00" wTick0.characters,
      mv.charId = "c1" ∧
      ∃ next,
        Grafitti.getNextStep wTick0.graf
          (jsOr (Grafitti.getCharacterRoom wTick0.graf "c1") mv.fromRoom)
          mv.toRoom = some next ∧
        next ∈ Grafitti.adj wTick0.graf
          (jsOr (Grafitti.getCharacterRoom wTick0.graf "c1") mv.fromRoom) ∧
        Grafitti.ValidPath wTick0.graf
          (jsOr (Grafitti.getCharacterRoom wTick0.graf "c1") mv.fromRoom)
          (Grafitti.findPath wTick0.graf
            (jsOr (Grafitti.getCharacterRoom wTick0.graf "c1") mv.fromRoom)
            mv.toRoom) mv.toRoom ∧
        (∀ q, Grafitti.pathToOk wTick0.graf
            (jsOr (Grafitti.getCharacterRoom wTick0.graf "c1") mv.fromRoom) q
            mv.toRoom →
          (Grafitti.findPath wTick0.graf
            (jsOr (Grafitti.getCharacterRoom wTick0.graf "c1") mv.fromRoom)
            mv.toRoom).length ≤ q.length) ∧
        Grafitti.getCharacterRoom
          (tick (some wSched) "18:00" "a" wTick0).graf "c1" = some next :=
  C3_one_hop_per_tick.1 (some wSched) "18:00" "a" wTick0 "c1" (by decide)

/-- C8 as the code implements it: for every movement intent that hops and
whose resolved scheduled action text is JS-truthy, the loop invokes
`recordWitnessedEvent` with the actor's NEW location, and the invocation
log is identical for every observer location. -/
theorem C8_record_on_hop (schedule : Option (List (String × List SchedEvent)))
    (currentTime : String) (st : TickState) (move : Movement) (next : String)
    (hnext : Grafitti.getNextStep st.graf
      (jsOr (Grafitti.getCharacterRoom st.graf move.charId) move.fromRoom)
      move.toRoom = some next)
    (hne : next ≠ "")
    (ht : jsTruthy (getScheduledAction schedule move.charId currentTime) =
      true) :
    ∀ playerRoomId,
      (processMove schedule currentTime playerRoomId st move).witnessCalls =
        st.witnessCalls ++
          [⟨move.charId, move.charName,
            (getScheduledAction schedule move.charId currentTime).getD "",
            next,
            roomNameOr (Grafitti.moveCharacter st.graf move.charId next).2
              next,
            currentTime⟩] := by
  intro playerRoomId
  simp only [processMove, hnext]
  rw [if_neg hne]
  simp [ht]

/-- Counterexample to C8 as stated: with a schedule entry whose action
text is the empty string, the intent c1: a → c is emitted, the hop a → b
actually happens, yet no `recordWitnessedEvent` invocation is made (the
call is guarded by the JS truthiness of the action text). -/
theorem C8_counterexample :
    Scheduler.tick (some wSchedEmptyAction) "18:00" wTick0.characters =
      [⟨"c1", "Alice", "a", "c"⟩] ∧
    Grafitti.getCharacterRoom
        (tick (some wSchedEmptyAction) "18:00" "z" wTick0).graf "c1" =
      some "b" ∧
    (tick (some wSchedEmptyAction) "18:00" "z" wTick0).witnessCalls = [] := by
  exact ⟨by decide, by decide, by decide⟩

/-- Witness for the amended C8 at a concrete input: the hop c1: a → b with
the non-empty action text records exactly one witness call at room b. -/
theorem C8_record_on_hop_witness :
    (processMove (some wSched) "18:00" "zz" wTick0
        ⟨"c1", "Alice", "a", "c"⟩).witnessCalls =
      [⟨"c1", "Alice", "walk the corridor", "b", "Room B", "18:00"⟩] :=
  (C8_record_on_hop (some wSched) "18:00" wTick0 ⟨"c1", "Alice", "a", "c"⟩
    "b" (by decide) (by decide) (by decide) "zz").trans (by decide)

end ExecutiveDirector

namespace Destiny

theorem queueStep_inv (w : DState) (h : PendingInvW w) :
    PendingInvW (queueStep w) := by
  unfold queueStep
  by_cases hp : w.pending = true
  · rw [if_pos hp]
    exact h
  · rw [if_neg hp]
    have h0 : w.queuedJobs = 0 := by
      rcases h with ⟨h1, h2⟩
      by_contra hne
      have h3 : w.queuedJobs = 1 := by omega
      exact hp (h2.mpr h3)
    unfold PendingInvW
    simp [h0]

theorem applyOutcome_inv (outcome : Option (List String)) (w : DState)
    (h : PendingInvW w) : PendingInvW (applyOutcome outcome w) := by
  cases outcome <;> exact h

theorem settleQueuedStep_inv (outcome : Option (List String)) (w : DState)
    (h : PendingInvW w) : PendingInvW (settleQueuedStep outcome w) := by
  unfold settleQueuedStep
  by_cases h0 : w.queuedJobs = 0
  · rw [if_pos h0]
    exact h
  · rw [if_neg h0]
    have h1 : w.queuedJobs = 1 := by rcases h with ⟨ha, -⟩; omega
    unfold PendingInvW
    simp [h1]

theorem talkStep_inv (w : DState) (pc : TalkPC) (h : PendingInvW w) :
    PendingInvW (talkStep w pc).1 := by
  cases pc with
  | start =>
    unfold talkStep
    by_cases h1 : w.responsesReady = true ∧ w.cachedResponses ≠ []
    · rw [if_pos h1]
      by_cases h2 : w.cachedResponses.tail = []
      · rw [if_pos h2]
        exact queueStep_inv _ h
      · rw [if_neg h2]
        exact h
    · rw [if_neg h1]
      by_cases h2 : w.pending = true
      · rw [if_pos h2]
        exact h
      · rw [if_neg h2]
        exact h
  | waitingPending =>
    simp only [talkStep]
    by_cases h2 : w.pending = true
    · rw [if_pos h2]
      exact h
    · rw [if_neg h2]
      exact h
  | waitingOwn => exact h
  | ownSettled =>
    cases hc : w.cachedResponses with
    | nil => simpa [talkStep, hc] using h
    | cons r rest => simpa [talkStep, hc, PendingInvW] using h
  | done r => exact h

theorem step_inv (c : Config) (l : Label) (h : PendingInv c) :
    PendingInv (step c l) := by
  obtain ⟨w, t1, t2⟩ := c
  cases l with
  | run1 => exact talkStep_inv w t1 h
  | run2 => exact talkStep_inv w t2 h
  | queue => exact queueStep_inv w h
  | settleQueued o => exact settleQueuedStep_inv o w h
  | settleOwn1 o =>
    cases t1 <;> first | exact h | exact applyOutcome_inv o w h
  | settleOwn2 o =>
    cases t2 <;> first | exact h | exact applyOutcome_inv o w h

/-- C5 amended: the in-flight map deduplicates exactly the jobs routed
through `queueResponseGeneration` — along every interleaving at most one
registered job per actor is in flight and the map entry is present exactly
while it runs; a queue request while one is in flight is a no-op; a
`getTalkResponse` caller that cannot serve from the pool and sees the map
entry suspends on it instead of generating; and the entry is cleared
exactly when the registered job settles. The on-demand generation path of
`getTalkResponse` bypasses this map — see the counterexample, where two
concurrent uncached calls start two enrichment jobs. -/
theorem C5_queue_dedup :
    (∀ (c0 : Config) (ls : List Label),
      PendingInv c0 → PendingInv (run c0 ls)) ∧
    (∀ w : DState, w.pending = true → queueStep w = w) ∧
    (∀ w : DState, w.pending = true →
      ¬(w.responsesReady = true ∧ w.cachedResponses ≠ []) →
      talkStep w .start = (w, .waitingPending)) ∧
    (∀ (outcome : Option (List String)) (w : DState), w.queuedJobs ≠ 0 →
      (settleQueuedStep outcome w).pending = false ∧
      (settleQueuedStep outcome w).queuedJobs = w.queuedJobs - 1) := by
  refine ⟨?_, ?_, ?_, ?_⟩
  · intro c0 ls
    induction ls generalizing c0 with
    | nil => intro h; exact h
    | cons l rest ih =>
      intro h
      exact ih (step c0 l) (step_inv c0 l h)
  · intro w hp
    unfold queueStep
    rw [if_pos hp]
  · intro w hp hnc
    unfold talkStep
    rw [if_neg hnc, if_pos hp]
  · intro outcome w h0
    unfold settleQueuedStep
    rw [if_neg h0]
    exact ⟨rfl, rfl⟩

/-- Witness for the amended C5 at a concrete input: after two queue
requests and one settlement the map discipline still holds. -/
theorem C5_queue_dedup_witness :
    PendingInv (run C5init
      [Label.queue, Label.queue, Label.settleQueued (some ["Hi"])]) :=
  C5_queue_dedup.1 C5init
    [Label.queue, Label.queue, Label.settleQueued (some ["Hi"])] (by decide)

/-- Counterexample to C5 as stated: two concurrent `getTalkResponse`
calls for the same uncached actor (nothing in the in-flight map) both pass
the map check before either generation settles — the on-demand path never
registers itself — so TWO underlying enrichment calls are started, not
one; the map stays empty, and both calls still resolve to non-empty
strings. -/
theorem C5_counterexample :
    (run C5init C5trace).world.genCalls = 2 ∧
    (run C5init C5trace).t1 = TalkPC.done "Hi" ∧
    (run C5init C5trace).t2 = TalkPC.done "Hi" ∧
    (run C5init C5trace).world.pending = false := by
  exact ⟨by decide, by decide, by decide, by decide⟩

/-- C6: `getTalkResponse` and `getEventResponse` always resolve to a
string — both embeddings are total functions in which every collaborator
failure lands in a caught branch — for known and unknown actor ids alike,
even when every enrichment attempt fails. On total failure
`getTalkResponse` resolves to the neutral fallback sentence
`(name) looks at you but says nothing.` (the claim's ellipsis standing for
the actor's name, as in the source template); `getEventResponse` serves a
cached reaction as is and otherwise synthesizes the deterministic factual
fallback. -/
theorem C6_responses_never_reject (w : DState) (m : CharacterMemory)
    (hcache : w.cachedResponses = []) :
    getTalkResponseSeq none none = "They don't seem interested in talking." ∧
    getTalkResponseSeq none (some w) =
      w.name ++ " looks at you but says nothing." ∧
    (∀ (g : Bool) (ge : Option String) (cr : Option String),
      getEventResponse g ge none cr m = "They don't remember.") ∧
    getEventResponse false none (some w) none m = eventFallback m ∧
    getEventResponse true none (some w) none m = eventFallback m ∧
    (∀ r, r ≠ "" → getEventResponse true none (some w) (some r) m = r) ∧
    getEventResponse true none (some w) (some "") m = eventFallback m := by
  refine ⟨rfl, ?_, fun g ge cr => rfl, rfl, rfl, ?_, rfl⟩
  case refine_2 =>
    intro r hr
    simp only [getEventResponse]
    rw [if_neg hr]
  simp only [getTalkResponseSeq]
  rw [if_neg (by simp [hcache])]
  by_cases hp : w.pending = true
  · rw [if_pos hp]
    unfold getTalkResponseSettled talkOnDemand applyOutcome
    simp [hcache]
  · rw [if_neg hp]
    unfold talkOnDemand applyOutcome
    simp [hcache]

/-- Witness for C6 at a concrete input: the uncached actor Alice with a
failing collaborator gets the neutral talk fallback and the factual event
fallback. -/
theorem C6_responses_never_reject_witness :
    getTalkResponseSeq none (some ⟨"Alice", false, false, [], 0, 0⟩) =
      "Alice looks at you but says nothing." ∧
    getEventResponse false none (some ⟨"Alice", false, false, [], 0, 0⟩) none
        ⟨"18:00", "a", "Room A", "c1", "Alice", "waves"⟩ =
      eventFallback ⟨"18:00", "a", "Room A", "c1", "Alice", "waves"⟩ :=
  ⟨(C6_responses_never_reject ⟨"Alice", false, false, [], 0, 0⟩
      ⟨"18:00", "a", "Room A", "c1", "Alice", "waves"⟩ rfl).2.1,
   (C6_responses_never_reject ⟨"Alice", false, false, [], 0, 0⟩
      ⟨"18:00", "a", "Room A", "c1", "Alice", "waves"⟩ rfl).2.2.2.1⟩

end Destiny

/-- C4 (code bug): the claim — backed by the spec and by
`Destiny.timeToMinutes` — requires a `00:00` end-of-day literal to compare
as 1440 minutes and resolve as the latest event of the day. In the
Scheduler, which performs the runtime target resolution, `timeToMinutes`
has no midnight case: `"00:00"` maps to 0, the `localeCompare` sort places
a `00:00` entry before all same-day entries, and resolution at 23:55 over
the victim-style schedule returns the 19:00 event, treating the midnight
entry as the earliest rather than the latest. -/
theorem C4_midnight_code_bug :
    Scheduler.timeToMinutes "00:00" = 0 ∧
    Destiny.timeToMinutes "00:00" = 1440 ∧
    (Scheduler.sortByTime
      [⟨"18:00", "Greets guests", "foyer"⟩,
       ⟨"19:00", "Announces Will", "living_room"⟩,
       ⟨"00:00", "DIES", "dining_room"⟩]).map (fun e => e.time) =
      ["00:00", "18:00", "19:00"] ∧
    Scheduler.getTargetEvent
      [⟨"00:00", "DIES", "dining_room"⟩,
       ⟨"18:00", "Greets guests", "foyer"⟩,
       ⟨"19:00", "Announces Will", "living_room"⟩]
      (Scheduler.timeToMinutes "23:55") =
      some ⟨"19:00", "Announces Will", "living_room"⟩ := by
  exact ⟨rfl, rfl, by decide, by decide⟩

end Spec2Proof
